import Mathlib

/-!
# dtracker: raw provenance log, descriptor virtualisation and whitelist

A shallow embedding of `provlog.H` and `osutils.H`.

* `rawProvStream` is a line-oriented `std::ofstream`.  Every statement of
  `PROVLOG::open` has the shape `rawProvStream << ... << std::endl`: it
  appends its text and a line feed.  The functions of namespace `PROVLOG`
  are modelled by the list of texts their statements append, in order;
  `stream_bytes` gives the characters of the stream and `log_lines` the lines
  a reader finds in it.
* `ufd_t` is `UINT32`; values are natural numbers and the only arithmetic on
  them (`next++`) is taken modulo `2 ^ 32`.
* `int` arguments (`flags`, `created`, `fd`) are integers; `&` on them is
  the two's complement `Int.land`.
-/

/-! ## `<fcntl.h>` (Linux values of the open flags) -/

/-- Open for writing only. -/
def O_WRONLY : Int := 1

/-- Open for reading and writing. -/
def O_RDWR : Int := 2

/-- Truncate an existing file (`01000` octal). -/
def O_TRUNC : Int := 512

/-- Mask of the access mode bits. -/
def O_ACCMODE : Int := 3

/-! ## `provlog.H`: types -/

/-- The source has `typedef UINT32 ufd_t;`: a virtual id is a natural number
below `2 ^ 32`. -/
abbrev ufd_t := Nat

/-- Number of values of `ufd_t`. -/
def UFD_MOD : Nat := 2 ^ 32

/-- Maximum open files per process. -/
abbrev MAX_OPEN_FILES : Nat := 1024

/-- The table `ufdmap_t`: `std::array<ufd_t, MAX_OPEN_FILES> map` and the
counter `ufd_t next`, both holding `ufd_t` values.  A slot holding `0` is
unassigned. -/
structure ufdmap_t where
  map : Fin MAX_OPEN_FILES → Nat
  next : Nat

/-- The global `ufdmap` at start-up: it has static storage, so every slot is
zero, and `next` has the initialiser `1`. -/
def ufdmap : ufdmap_t := ⟨fun _ => 0, 1⟩

/-- The method `get` at a descriptor number inside the array:
`if (map[fd]==0) map[fd] = next++; return map[fd];`.
The result is the returned value and the table after the call. -/
def ufdmap_t.get (m : ufdmap_t) (fd : Fin MAX_OPEN_FILES) : Nat × ufdmap_t :=
  let m1 : ufdmap_t :=
    if m.map fd = 0 then
      { map := Function.update m.map fd m.next, next := (m.next + 1) % UFD_MOD }
    else m
  (m1.map fd, m1)

/-- The method `del` at a descriptor number inside the array: `map[fd] = 0;`. -/
def ufdmap_t.del (m : ufdmap_t) (fd : Fin MAX_OPEN_FILES) : ufdmap_t :=
  { m with map := Function.update m.map fd 0 }

/-- How a call can end: it returns, it stops the session with a diagnostic,
or it has no defined behaviour (an access outside a `std::array`). -/
inductive Outcome (α : Type) where
  | returned (a : α)
  | fatal
  | undefined
  deriving DecidableEq

/-- The method `get(int fd)` at any `int`.  The source indexes `map[fd]`
without a test of `fd`; `std::array::operator[]` is defined only for
`0 <= fd < MAX_OPEN_FILES`. -/
def ufdmap_t.get_int (m : ufdmap_t) (fd : Int) : Outcome (Nat × ufdmap_t) :=
  if h : 0 ≤ fd ∧ fd < MAX_OPEN_FILES then
    Outcome.returned (m.get ⟨fd.toNat, by omega⟩)
  else Outcome.undefined

/-- A call on the table. -/
inductive ufd_op where
  | get (fd : Fin MAX_OPEN_FILES)
  | del (fd : Fin MAX_OPEN_FILES)
  deriving DecidableEq

/-- The table after one call. -/
def ufdmap_t.step (m : ufdmap_t) : ufd_op → ufdmap_t
  | ufd_op.get fd => (m.get fd).2
  | ufd_op.del fd => m.del fd

/-- The table after a sequence of calls. -/
def ufdmap_t.run : ufdmap_t → List ufd_op → ufdmap_t
  | m, [] => m
  | m, op :: ops => ufdmap_t.run (m.step op) ops

/-- The values returned by the `get` calls of a sequence, in call order. -/
def ufdmap_t.returns : ufdmap_t → List ufd_op → List Nat
  | _, [] => []
  | m, ufd_op.get fd :: ops => (m.get fd).1 :: ufdmap_t.returns (m.get fd).2 ops
  | m, ufd_op.del fd :: ops => ufdmap_t.returns (m.del fd) ops

/-- Number of fresh assignments in a sequence: `get` calls that find their
slot unassigned and so consume a value of `next`. -/
def ufdmap_t.fresh : ufdmap_t → List ufd_op → Nat
  | _, [] => 0
  | m, ufd_op.get fd :: ops =>
      (if m.map fd = 0 then 1 else 0) + ufdmap_t.fresh (m.get fd).2 ops
  | m, ufd_op.del fd :: ops => ufdmap_t.fresh (m.del fd) ops

/-- The sequence `get(0); del(0)` repeated `n` times: a descriptor opened and
closed again and again. -/
def churn : Nat → List ufd_op
  | 0 => []
  | n + 1 => ufd_op.get 0 :: ufd_op.del 0 :: churn n

/-! ## `provlog.H`: namespace `PROVLOG` -/

/-- Lines appended to `rawProvStream` by
`PROVLOG::open(ufd, fdname, flags, created)`; `exename` is the global
holding the current executable name. -/
def PROVLOG.open (exename : String) (ufd : ufd_t) (fdname : String)
    (flags created : Int) : List String :=
  let s0 : List String := ["o:ufd" ++ toString ufd ++ ":" ++ fdname]
  -- Unless the the O_WRONLY flag is on, the file descriptor can be read.
  let s1 : List String :=
    if Int.land flags O_WRONLY = 0 then
      s0 ++ ["u:" ++ exename ++ ":" ++ fdname]
    else s0
  -- Emit a generated line if needed.
  if Int.land flags (Int.lor O_WRONLY O_RDWR) ≠ 0 then
    if created ≠ 0 then
      (s1 ++ ["#g:created"]) ++ ["g:c:" ++ exename ++ ":" ++ fdname]
    else if Int.land flags O_TRUNC ≠ 0 then
      (s1 ++ ["#g:truncated"]) ++ ["g:t:" ++ exename ++ ":" ++ fdname]
    else
      (s1 ++ ["#g:updated"]) ++ ["g:u:" ++ exename ++ ":" ++ fdname]
  else s1

/-- Lines appended by `PROVLOG::close(ufd)`. -/
def PROVLOG.close (ufd : ufd_t) : List String :=
  ["c:ufd" ++ toString ufd]

/-- Lines appended by `PROVLOG::exec(exename, pid)`. -/
def PROVLOG.exec (exename : String) (pid : Int) : List String :=
  ["x:" ++ toString pid ++ ":" ++ exename]

/-! ## Reading the log -/

/-- A comment line: its first character is `#`. -/
def is_comment (l : String) : Bool := l.data.head? == some '#'

/-- A generation record: the line starts with `g:`. -/
def is_generation_record (l : String) : Bool := l.data.take 2 == ['g', ':']

/-- The open record of descriptor `ufd`. -/
def open_line (ufd : ufd_t) (fdname : String) : String :=
  "o:ufd" ++ toString ufd ++ ":" ++ fdname

/-- The used record. -/
def used_line (exename fdname : String) : String :=
  "u:" ++ exename ++ ":" ++ fdname

/-- Table invariant, with `g` one more than the number of virtual ids issued
so far: the counter is `g` modulo `2 ^ 32`, every slot is below `g`, and
no two slots hold the same non-zero virtual id. -/
def ufd_inv (m : ufdmap_t) (g : Nat) : Prop :=
  1 ≤ g ∧ g ≤ UFD_MOD ∧ m.next = g % UFD_MOD ∧ (∀ i, m.map i < g) ∧
    (∀ i j, m.map i = m.map j → m.map i ≠ 0 → i = j)

/-! ## C library used by `osutils.H`

C strings are lists of characters without the terminating NUL.  The functions
`basename` and `dirname` follow the glibc sources of the POSIX functions
declared by `<libgen.h>`; `regcomp` and `regexec` cover the part of POSIX
extended regular expressions that the patterns of `osutils.H` are written in:
ordinary characters, `\` followed by a special character, `.`, the anchors
`^` and `$`, and `|` between branches. -/

/-- The C string `s.c_str()` as the C library reads it: the characters before
the first NUL. -/
def c_str (s : String) : List Char := s.data.takeWhile (fun c => c ≠ Char.ofNat 0)

/-- The call `strrchr(s, '/')`: the text before the last `/` and the text
after it, or `none` when `s` has no `/`. -/
def split_last_slash : List Char → Option (List Char × List Char)
  | [] => none
  | c :: cs =>
    match split_last_slash cs with
    | some (b, a) => some (c :: b, a)
    | none => if c = '/' then some ([], cs) else none

/-- The loop `for (runp = p; runp != path; --runp) if (runp[-1] != '/') break;`
on the text in front of `p`: that text without its trailing slashes. -/
def strip_slashes (l : List Char) : List Char :=
  (l.reverse.dropWhile (fun c => c = '/')).reverse

/-- The function `dirname(3)`. -/
def dirname (path : List Char) : List Char :=
  match split_last_slash path with
  | none => ['.']
  | some (before, after) =>
    -- `last_slash`, given by the text in front of it; `none` is `NULL`
    let last_slash : Option (List Char) :=
      if before ≠ [] ∧ after = [] then
        -- the `/` is the last character, we have to look further
        if strip_slashes before ≠ [] then
          (split_last_slash (strip_slashes before)).map Prod.fst
        else some before
      else some before
    match last_slash with
    | none => ['.']
    | some b =>
      if strip_slashes b = [] then
        -- the last slash is the first character: return "/", or "//" when
        -- there are exactly two slashes at the beginning
        if b.length = 1 then path.take 2 else path.take 1
      else strip_slashes b

/-- The function `basename(3)` of `<libgen.h>` (`__xpg_basename`). -/
def basename (filename : List Char) : List Char :=
  if filename = [] then ['.']
  else
    match split_last_slash filename with
    | none => filename
    | some (before, after) =>
      if after = [] then
        -- a trailing `/`: remove the trailing slashes
        if strip_slashes before ≠ [] then
          match split_last_slash (strip_slashes before) with
          | none => strip_slashes before
          | some (_, name) => name
        else ['/']
      else after

/-- One position of a compiled pattern. -/
inductive re_atom where
  | chr (c : Char)
  | any
  | bol
  | eol
  deriving DecidableEq

/-- A compiled pattern `regex_t`: the branches separated by `|`. -/
abbrev regex_t := List (List re_atom)

/-- The characters with a special meaning in an extended regular expression. -/
def re_special : List Char :=
  ['.', '[', '\\', '(', ')', '*', '+', '?', '{', '|', '^', '$']

/-- Parser of `regcomp` with `REG_EXTENDED`: the first branch and the branches
after it, or `none` for a pattern that is malformed or uses a construct
outside the part covered here (groups, brackets, repetition). -/
def regcomp_parse : List Char → Option (List re_atom × List (List re_atom))
  | [] => some ([], [])
  | ['\\'] => none
  | '\\' :: c :: cs =>
    if c ∈ re_special then
      (regcomp_parse cs).map (fun r => (re_atom.chr c :: r.1, r.2))
    else none
  | '|' :: cs => (regcomp_parse cs).map (fun r => ([], r.1 :: r.2))
  | '^' :: cs => (regcomp_parse cs).map (fun r => (re_atom.bol :: r.1, r.2))
  | '$' :: cs => (regcomp_parse cs).map (fun r => (re_atom.eol :: r.1, r.2))
  | '.' :: cs => (regcomp_parse cs).map (fun r => (re_atom.any :: r.1, r.2))
  | c :: cs =>
    if c ∈ ['[', '(', ')', '*', '+', '?', '{'] then none
    else (regcomp_parse cs).map (fun r => (re_atom.chr c :: r.1, r.2))

/-- The call `regcomp(&re, pattern, REG_EXTENDED|REG_NOSUB)`: `some re` when it
returns 0.  It fails when the library cannot get the memory it needs
(`resources = false`) or when the pattern does not parse. -/
def regcomp (resources : Bool) (pattern : String) : Option regex_t :=
  if resources then (regcomp_parse pattern.data).map (fun r => r.1 :: r.2) else none

/-- A branch matches at the current position; `at_start` tells whether the
position is the beginning of the string. -/
def match_here : List re_atom → Bool → List Char → Bool
  | [], _, _ => true
  | re_atom.bol :: as, at_start, s => at_start && match_here as at_start s
  | re_atom.eol :: as, at_start, s => s.isEmpty && match_here as at_start s
  | re_atom.any :: _, _, [] => false
  | re_atom.any :: as, _, _ :: s => match_here as false s
  | re_atom.chr _ :: _, _, [] => false
  | re_atom.chr c :: as, _, d :: s => c == d && match_here as false s

/-- Some branch matches at the current position or at a later one. -/
def regexec_from (re : regex_t) : Bool → List Char → Bool
  | at_start, [] => re.any (fun b => match_here b at_start [])
  | at_start, c :: s =>
    re.any (fun b => match_here b at_start (c :: s)) || regexec_from re false s

/-- Return value of `regexec` when nothing matches. -/
def REG_NOMATCH : Int := 1

/-- The call `regexec(&re, string, 0, NULL, 0)`: 0 when some part of `string`
matches, `REG_NOMATCH` otherwise. -/
def regexec (re : regex_t) (string : List Char) : Int :=
  if regexec_from re true string then 0 else REG_NOMATCH

/-! ## `osutils.H` -/

/-- The platform macros `DTRACKER_FILE_WHITELIST_RE` and
`DTRACKER_PATH_WHITELIST_RE`; `none` is `NULL`. -/
structure whitelist_re where
  DTRACKER_FILE_WHITELIST_RE : Option String
  DTRACKER_PATH_WHITELIST_RE : Option String

/-- The macros under `TARGET_LINUX`. -/
def TARGET_LINUX : whitelist_re :=
  ⟨some "\\.so$|\\.so\\.", some "^/proc/|^/lib/|^/usr/lib/|^/etc/|^/usr/share/"⟩

/-- The macros under `TARGET_MAC`. -/
def TARGET_MAC : whitelist_re := ⟨some "\\.dylib$", none⟩

/-- The macros under `TARGET_WINDOWS`. -/
def TARGET_WINDOWS : whitelist_re := ⟨some "\\.dll$", none⟩

/-- Which of the calls of `in_dtracker_whitelist` that need memory get it:
the two `strdup` calls, the `malloc` call and the two `regcomp` calls, in
source order. -/
structure libc_env where
  strdup_file : Bool
  regcomp_file : Bool
  strdup_path : Bool
  malloc_path : Bool
  regcomp_path : Bool

/-- Every call gets its memory. -/
def libc_env.ok : libc_env := ⟨true, true, true, true, true⟩

/-- The block `// Check file patterns.`: the value of `status` at the test
`if (status == 0) return 1;`, or `none` when the block is not entered. -/
def check_file_patterns (cfg : whitelist_re) (env : libc_env) (fname : String) : Option Int :=
  match cfg.DTRACKER_FILE_WHITELIST_RE with
  | none => none
  | some pattern =>
    if env.strdup_file then
      let bname := basename (c_str fname)
      match regcomp env.regcomp_file pattern with
      | some re => some (regexec re bname)
      | none => some (-1)
    else none

/-- The block `// Check dir patterns.`: the value of `status` at the test
`if (status == 0) return 1;`, or `none` when the block is not entered. -/
def check_dir_patterns (cfg : whitelist_re) (env : libc_env) (fname : String) : Option Int :=
  match cfg.DTRACKER_PATH_WHITELIST_RE with
  | none => none
  | some pattern =>
    if env.strdup_path then
      -- We have to do this because dirname() does not append a /.
      let dname_noslash := dirname (c_str fname)
      if env.malloc_path then
        match regcomp env.regcomp_path pattern with
        | some re =>
          let dname := dname_noslash ++ ['/']
          some (regexec re dname)
        | none => some (-1)
      else some (-1)
    else none

/-- The function `in_dtracker_whitelist(fname)`: 1 if the filename is
whitelisted, 0 otherwise. -/
def in_dtracker_whitelist (cfg : whitelist_re) (env : libc_env) (fname : String) : Int :=
  if check_file_patterns cfg env fname = some 0 then 1
  else if check_dir_patterns cfg env fname = some 0 then 1
  else 0

/-! ## `osutils.H`: `path_resolve` -/

/-- The function `path_resolve(path)` under `TARGET_LINUX` or `TARGET_MAC`.
The argument `realpath` stands for the C library call
`realpath(path.c_str(), NULL)`; `none` is its `NULL` result.  On success the
function returns the string built from the result.  On failure the source
executes `return NULL;` in a function that returns `std::string`: the string
is constructed from a null `const char *`, which has no defined behaviour. -/
def path_resolve (realpath : List Char → Option (List Char)) (path : String) :
    Outcome String :=
  match realpath (c_str path) with
  | some crval => Outcome.returned (String.mk crval)
  | none => Outcome.undefined

/-! ## The log as its reader sees it: the lines of the stream -/

/-- The characters written to `rawProvStream`: every `<< ... << std::endl`
statement writes its text followed by a line feed. -/
def stream_bytes : List String → List Char
  | [] => []
  | r :: rs => r.data ++ '\n' :: stream_bytes rs

/-- The lines of a text: the stretches between line feeds.  Text after the
last line feed, if any, is a last line. -/
def stream_lines : List Char → List (List Char)
  | [] => []
  | c :: cs =>
    if c = '\n' then [] :: stream_lines cs
    else
      match stream_lines cs with
      | [] => [[c]]
      | l :: ls => (c :: l) :: ls

/-- The lines a reader of the log finds after the given statements wrote
their text. -/
def log_lines (written : List String) : List (List Char) :=
  stream_lines (stream_bytes written)

/-- A line of the log that starts with `#`. -/
def line_is_comment (l : List Char) : Bool := l.head? == some '#'

/-- The lines of the log that are left for a reader who deletes every line
that starts with `#`. -/
def strip_comments (written : List String) : List (List Char) :=
  (log_lines written).filter (fun l => !line_is_comment l)

/-- The comment line that announces a generation record, read off the
category letter of the record. -/
def comment_of (l : List Char) : List (List Char) :=
  if l.take 4 = ['g', ':', 'c', ':'] then ["#g:created".data]
  else if l.take 4 = ['g', ':', 't', ':'] then ["#g:truncated".data]
  else if l.take 4 = ['g', ':', 'u', ':'] then ["#g:updated".data]
  else []

/-- Puts the comment line back in front of every line that is a generation
record. -/
def restore_comments : List (List Char) → List (List Char)
  | [] => []
  | l :: ls => comment_of l ++ l :: restore_comments ls

/-- Every line of the log that starts with `#` is directly followed by the
generation record it announces. -/
def comments_paired : List (List Char) → Bool
  | [] => true
  | [l] => !line_is_comment l
  | c :: g :: rest =>
    if line_is_comment c then comment_of g == [c] && comments_paired (g :: rest)
    else comments_paired (g :: rest)

/-! ## The table property of `ufdmap_t` -/

/-- Every non-zero slot is strictly below `next`, and no two distinct
descriptor numbers hold the same non-zero virtual id. -/
def table_ok (m : ufdmap_t) : Prop :=
  (∀ i, m.map i ≠ 0 → m.map i < m.next) ∧
    (∀ i j, i ≠ j → m.map i ≠ 0 → m.map i ≠ m.map j)

/-! # Theorems -/

/-! ## Theorems: `PROVLOG::open` -/

/-- With access mode `O_RDWR` the `O_WRONLY` bit is clear. -/
theorem land_wronly_of_accmode_rdwr (flags : Int)
    (h : Int.land flags O_ACCMODE = O_RDWR) : Int.land flags O_WRONLY = 0 := by
  unfold O_ACCMODE O_RDWR at h
  unfold O_WRONLY
  rcases flags with n | n
  · have h3 : Int.land (Int.ofNat n) 3 = ((n &&& 3 : Nat) : Int) := rfl
    have h1 : Int.land (Int.ofNat n) 1 = ((n &&& 1 : Nat) : Int) := rfl
    rw [h3] at h
    rw [h1]
    have e3 : n &&& 3 = n % 4 := Nat.and_pow_two_sub_one_eq_mod n 2
    have e1 : n &&& 1 = n % 2 := Nat.and_pow_two_sub_one_eq_mod n 1
    rw [e3] at h
    rw [e1]
    omega
  · have h3 : Int.land (Int.negSucc n) 3 = ((Nat.ldiff 3 n : Nat) : Int) := rfl
    have h1 : Int.land (Int.negSucc n) 1 = ((Nat.ldiff 1 n : Nat) : Int) := rfl
    rw [h3] at h
    rw [h1]
    have h2 : Nat.ldiff 3 n = 2 := by exact_mod_cast h
    have hb : (Nat.ldiff 3 n).testBit 0 = Nat.testBit 2 0 := by rw [h2]
    rw [Nat.testBit_ldiff] at hb
    have hz : Nat.ldiff 1 n = 0 := by
      apply Nat.eq_of_testBit_eq
      intro i
      rw [Nat.testBit_ldiff, Nat.zero_testBit]
      rcases i with _ | i
      · simp at hb ⊢
        exact hb
      · simp [Nat.testBit_one_eq_true_iff_self_eq_zero]
    rw [hz]; rfl

/-- The mask `O_WRONLY|O_RDWR` is the access mode mask. -/
theorem lor_wronly_rdwr : Int.lor O_WRONLY O_RDWR = O_ACCMODE := by decide

/-- The open record is neither a comment nor a generation record. -/
theorem open_line_kind (ufd : ufd_t) (fdname : String) :
    is_comment (open_line ufd fdname) = false ∧
      is_generation_record (open_line ufd fdname) = false := by
  constructor <;> simp [is_comment, is_generation_record, open_line, String.data_append]

/-- The used record is neither a comment nor a generation record. -/
theorem used_line_kind (exename fdname : String) :
    is_comment (used_line exename fdname) = false ∧
      is_generation_record (used_line exename fdname) = false := by
  constructor <;> simp [is_comment, is_generation_record, used_line, String.data_append]

/-- The open record differs from every used record. -/
theorem open_line_ne_used_line (ufd : ufd_t) (fdname e f : String) :
    open_line ufd fdname ≠ used_line e f := by
  intro h
  have := congrArg (fun s => s.data.head?) h
  simp [used_line, open_line, String.data_append] at this

/-- Shape of the output of `PROVLOG::open`: the open record, the used record
unless `O_WRONLY` is set, and the generation lines under the write guard. -/
theorem open_shape (exename : String) (ufd : ufd_t) (fdname : String)
    (flags created : Int) :
    PROVLOG.open exename ufd fdname flags created =
      (open_line ufd fdname ::
        (if Int.land flags O_WRONLY = 0 then [used_line exename fdname] else [])) ++
      (if Int.land flags (Int.lor O_WRONLY O_RDWR) ≠ 0 then
        (if created ≠ 0 then ["#g:created", "g:c:" ++ exename ++ ":" ++ fdname]
         else if Int.land flags O_TRUNC ≠ 0 then
           ["#g:truncated", "g:t:" ++ exename ++ ":" ++ fdname]
         else ["#g:updated", "g:u:" ++ exename ++ ":" ++ fdname])
       else []) := by
  unfold PROVLOG.open open_line used_line
  by_cases h1 : Int.land flags O_WRONLY = 0 <;>
    by_cases h2 : Int.land flags (Int.lor O_WRONLY O_RDWR) = 0 <;>
    by_cases h3 : created = 0 <;>
    by_cases h4 : Int.land flags O_TRUNC = 0 <;>
    simp [h1, h2, h3, h4]

/-- With write intent the output holds exactly one comment line and exactly
one generation record. -/
theorem open_counts (exename : String) (ufd : ufd_t) (fdname : String)
    (flags created : Int) (hw : Int.land flags (Int.lor O_WRONLY O_RDWR) ≠ 0) :
    (PROVLOG.open exename ufd fdname flags created).countP is_comment = 1 ∧
    (PROVLOG.open exename ufd fdname flags created).countP is_generation_record = 1 := by
  rw [open_shape]
  constructor
  · by_cases h1 : Int.land flags O_WRONLY = 0 <;>
      by_cases h3 : created = 0 <;>
      by_cases h4 : Int.land flags O_TRUNC = 0 <;>
      simp [hw, h1, h3, h4, List.countP_cons, is_comment, open_line, used_line,
        String.data_append]
  · by_cases h1 : Int.land flags O_WRONLY = 0 <;>
      by_cases h3 : created = 0 <;>
      by_cases h4 : Int.land flags O_TRUNC = 0 <;>
      simp [hw, h1, h3, h4, List.countP_cons, is_generation_record, open_line, used_line,
        String.data_append]

/-- C1: with write intent (`flags & (O_WRONLY|O_RDWR)` non-zero) the output
of `PROVLOG::open` is the open record, the used record unless `O_WRONLY` is
set, and then exactly one generation pair (comment line, record line) chosen
by precedence: created if `created` is non-zero, else truncated if `O_TRUNC`
is set, else updated.  The output holds exactly one comment line and exactly
one generation record. -/
theorem open_generation_precedence (exename : String) (ufd : ufd_t) (fdname : String)
    (flags created : Int) (hw : Int.land flags (Int.lor O_WRONLY O_RDWR) ≠ 0) :
    (created ≠ 0 →
      PROVLOG.open exename ufd fdname flags created =
        (open_line ufd fdname ::
          (if Int.land flags O_WRONLY = 0 then [used_line exename fdname] else [])) ++
        ["#g:created", "g:c:" ++ exename ++ ":" ++ fdname]) ∧
    (created = 0 → Int.land flags O_TRUNC ≠ 0 →
      PROVLOG.open exename ufd fdname flags created =
        (open_line ufd fdname ::
          (if Int.land flags O_WRONLY = 0 then [used_line exename fdname] else [])) ++
        ["#g:truncated", "g:t:" ++ exename ++ ":" ++ fdname]) ∧
    (created = 0 → Int.land flags O_TRUNC = 0 →
      PROVLOG.open exename ufd fdname flags created =
        (open_line ufd fdname ::
          (if Int.land flags O_WRONLY = 0 then [used_line exename fdname] else [])) ++
        ["#g:updated", "g:u:" ++ exename ++ ":" ++ fdname]) ∧
    (PROVLOG.open exename ufd fdname flags created).countP is_comment = 1 ∧
    (PROVLOG.open exename ufd fdname flags created).countP is_generation_record = 1 := by
  have hcnt := open_counts exename ufd fdname flags created hw
  refine ⟨?_, ?_, ?_, hcnt.1, hcnt.2⟩
  · intro hc; rw [open_shape]; simp [hw, hc]
  · intro hc ht; rw [open_shape]; simp [hw, hc, ht]
  · intro hc ht; rw [open_shape]; simp [hw, hc, ht]

/-- Witness for C1: a write-only open of a new file. -/
theorem open_generation_precedence_witness :
    Int.land 1 (Int.lor O_WRONLY O_RDWR) ≠ 0 ∧
    ((1 : Int) ≠ 0 →
      PROVLOG.open "app" 1 "/tmp/out.txt" 1 1 =
        (open_line 1 "/tmp/out.txt" ::
          (if Int.land 1 O_WRONLY = 0 then [used_line "app" "/tmp/out.txt"] else [])) ++
        ["#g:created", "g:c:" ++ "app" ++ ":" ++ "/tmp/out.txt"]) :=
  ⟨by decide, (open_generation_precedence "app" 1 "/tmp/out.txt" 1 1 (by decide)).1⟩

/-- A line whose first character is not `u` is not a used record. -/
theorem used_line_ne_of_head (e f l : String) (h : l.data.head? ≠ some 'u') :
    (used_line e f = l) = False := by
  apply eq_false
  intro hl
  apply h
  rw [← hl]
  simp [used_line, String.data_append]

/-- C2: the used record `u:<exe>:<path>` is in the output of `PROVLOG::open`
exactly when the `O_WRONLY` bit of `flags` is clear, whatever `created` and
`O_TRUNC` say (so whichever generation pair is chosen), and it is written at
most once; an open whose access mode is `O_RDWR` writes the used record and
exactly one generation pair (one comment line, one generation record). -/
theorem open_used_line_iff (exename : String) (ufd : ufd_t) (fdname : String)
    (flags created : Int) :
    (used_line exename fdname ∈ PROVLOG.open exename ufd fdname flags created ↔
      Int.land flags O_WRONLY = 0) ∧
    (PROVLOG.open exename ufd fdname flags created).count (used_line exename fdname) ≤ 1 ∧
    (Int.land flags O_ACCMODE = O_RDWR →
      used_line exename fdname ∈ PROVLOG.open exename ufd fdname flags created ∧
      (PROVLOG.open exename ufd fdname flags created).countP is_comment = 1 ∧
      (PROVLOG.open exename ufd fdname flags created).countP is_generation_record = 1) := by
  have key : (used_line exename fdname ∈ PROVLOG.open exename ufd fdname flags created ↔
      Int.land flags O_WRONLY = 0) := by
    rw [open_shape]
    by_cases h1 : Int.land flags O_WRONLY = 0 <;>
      by_cases h2 : Int.land flags (Int.lor O_WRONLY O_RDWR) = 0 <;>
      by_cases h3 : created = 0 <;>
      by_cases h4 : Int.land flags O_TRUNC = 0 <;>
      simp [h1, h2, h3, h4, used_line_ne_of_head, open_line, String.data_append]
  refine ⟨key, ?_, ?_⟩
  · rw [open_shape]
    by_cases h1 : Int.land flags O_WRONLY = 0 <;>
      by_cases h2 : Int.land flags (Int.lor O_WRONLY O_RDWR) = 0 <;>
      by_cases h3 : created = 0 <;>
      by_cases h4 : Int.land flags O_TRUNC = 0 <;>
      simp [h1, h2, h3, h4, List.count_cons, used_line, open_line, String.ext_iff,
        String.data_append]
  · intro hacc
    have hw : Int.land flags (Int.lor O_WRONLY O_RDWR) ≠ 0 := by
      rw [lor_wronly_rdwr, hacc]; decide
    have hg := open_counts exename ufd fdname flags created hw
    exact ⟨key.mpr (land_wronly_of_accmode_rdwr flags hacc), hg.1, hg.2⟩

/-- Witness for C2: an `O_RDWR` open. -/
theorem open_used_line_iff_witness :
    Int.land 2 O_ACCMODE = O_RDWR ∧
      used_line "app" "/tmp/out.txt" ∈ PROVLOG.open "app" 1 "/tmp/out.txt" 2 0 ∧
      (PROVLOG.open "app" 1 "/tmp/out.txt" 2 0).countP is_comment = 1 ∧
      (PROVLOG.open "app" 1 "/tmp/out.txt" 2 0).countP is_generation_record = 1 :=
  ⟨by decide, (open_used_line_iff "app" 1 "/tmp/out.txt" 2 0).2.2 (by decide)⟩

/-- C3 fails as stated: with `created` set and the flags `O_RDONLY|O_CREAT`
(`64`), which carry no write bit, the output is the open record and the used
record only; no created pair is written. -/
theorem open_created_readonly_counterexample :
    PROVLOG.open "app" 1 "/tmp/out.txt" 64 1 = ["o:ufd1:/tmp/out.txt", "u:app:/tmp/out.txt"] ∧
    PROVLOG.open "app" 1 "/tmp/out.txt" 64 1 ≠
      ["o:ufd1:/tmp/out.txt", "u:app:/tmp/out.txt", "#g:created", "g:c:app:/tmp/out.txt"] := by
  constructor <;> decide

/-- C3 (amended): when `created` is non-zero and the flags have write intent
(`flags & (O_WRONLY|O_RDWR)` non-zero), the output of `PROVLOG::open` is
exactly the open record, the used record if `O_WRONLY` is clear, the comment
`#g:created` and the record `g:c:<exe>:<path>`, in this order. -/
theorem open_created_output (exename : String) (ufd : ufd_t) (fdname : String)
    (flags created : Int) (hc : created ≠ 0)
    (hw : Int.land flags (Int.lor O_WRONLY O_RDWR) ≠ 0) :
    PROVLOG.open exename ufd fdname flags created =
      if Int.land flags O_WRONLY = 0 then
        ["o:ufd" ++ toString ufd ++ ":" ++ fdname, "u:" ++ exename ++ ":" ++ fdname,
          "#g:created", "g:c:" ++ exename ++ ":" ++ fdname]
      else
        ["o:ufd" ++ toString ufd ++ ":" ++ fdname,
          "#g:created", "g:c:" ++ exename ++ ":" ++ fdname] := by
  rw [open_shape]
  by_cases h1 : Int.land flags O_WRONLY = 0 <;> simp [h1, hc, hw, open_line, used_line]

/-- Witness for C3 (amended): read-write creation. -/
theorem open_created_output_witness :
    (1 : Int) ≠ 0 ∧ Int.land 2 (Int.lor O_WRONLY O_RDWR) ≠ 0 ∧
    PROVLOG.open "app" 7 "/tmp/out.txt" 2 1 =
      if Int.land 2 O_WRONLY = 0 then
        ["o:ufd" ++ toString 7 ++ ":" ++ "/tmp/out.txt", "u:" ++ "app" ++ ":" ++ "/tmp/out.txt",
          "#g:created", "g:c:" ++ "app" ++ ":" ++ "/tmp/out.txt"]
      else
        ["o:ufd" ++ toString 7 ++ ":" ++ "/tmp/out.txt",
          "#g:created", "g:c:" ++ "app" ++ ":" ++ "/tmp/out.txt"] :=
  ⟨by decide, by decide, open_created_output "app" 7 "/tmp/out.txt" 2 1 (by decide) (by decide)⟩

/-! ## Theorems: the table `ufdmap_t` -/

/-- On an assigned slot `get` returns the slot and changes nothing. -/
theorem get_of_assigned (m : ufdmap_t) (fd : Fin MAX_OPEN_FILES) (h : m.map fd ≠ 0) :
    m.get fd = (m.map fd, m) := by
  simp [ufdmap_t.get, h]

/-- On an unassigned slot `get` stores and returns `next` and increments it. -/
theorem get_of_unassigned (m : ufdmap_t) (fd : Fin MAX_OPEN_FILES) (h : m.map fd = 0) :
    m.get fd =
      (m.next, ⟨Function.update m.map fd m.next, (m.next + 1) % UFD_MOD⟩) := by
  simp [ufdmap_t.get, h]

/-- Running a concatenation is running the parts in turn. -/
theorem run_append (m : ufdmap_t) (xs ys : List ufd_op) :
    m.run (xs ++ ys) = (m.run xs).run ys := by
  induction xs generalizing m with
  | nil => rfl
  | cons x xs ih => exact ih (m.step x)

/-- Returned values of a concatenation. -/
theorem returns_append (m : ufdmap_t) (xs ys : List ufd_op) :
    m.returns (xs ++ ys) = m.returns xs ++ (m.run xs).returns ys := by
  induction xs generalizing m with
  | nil => rfl
  | cons x xs ih =>
    cases x with
    | get fd => simp [ufdmap_t.returns, ufdmap_t.run, ufdmap_t.step, ih]
    | del fd => simp [ufdmap_t.returns, ufdmap_t.run, ufdmap_t.step, ih]

/-- Fresh assignments of a sequence that starts with `get`. -/
theorem fresh_get_cons (m : ufdmap_t) (fd : Fin MAX_OPEN_FILES) (ops : List ufd_op) :
    m.fresh (ufd_op.get fd :: ops) =
      (if m.map fd = 0 then 1 else 0) + (m.get fd).2.fresh ops := rfl

/-- Fresh assignments of a concatenation. -/
theorem fresh_append (m : ufdmap_t) (xs ys : List ufd_op) :
    m.fresh (xs ++ ys) = m.fresh xs + (m.run xs).fresh ys := by
  induction xs generalizing m with
  | nil => simp [ufdmap_t.fresh, ufdmap_t.run]
  | cons x xs ih =>
    cases x with
    | get fd => simp [ufdmap_t.fresh, ufdmap_t.run, ufdmap_t.step, ih, Nat.add_assoc]
    | del fd => simp [ufdmap_t.fresh, ufdmap_t.run, ufdmap_t.step, ih]

/-- The start-up table satisfies the invariant with no id issued. -/
theorem ufd_inv_init : ufd_inv ufdmap 1 := by
  refine ⟨le_refl 1, by norm_num [UFD_MOD], by norm_num [ufdmap, UFD_MOD], ?_, ?_⟩
  · intro i; simp [ufdmap]
  · intro i j _ h; simp [ufdmap] at h

/-- A fresh `get` below the wrap keeps the invariant and issues `g`. -/
theorem ufd_inv_get_fresh (m : ufdmap_t) (g : Nat) (fd : Fin MAX_OPEN_FILES)
    (h : ufd_inv m g) (h0 : m.map fd = 0) (hg : g + 1 ≤ UFD_MOD) :
    (m.get fd).1 = g ∧ ufd_inv (m.get fd).2 (g + 1) := by
  obtain ⟨h1, _, hn, hlt, hinj⟩ := h
  have hgm : g % UFD_MOD = g := Nat.mod_eq_of_lt (by omega)
  rw [get_of_unassigned m fd h0, hn, hgm]
  refine ⟨rfl, by omega, hg, rfl, ?_, ?_⟩
  · intro i
    by_cases hi : i = fd
    · subst hi; simp
    · simp only [Function.update_noteq hi]
      exact Nat.lt_succ_of_lt (hlt i)
  · intro i j hij hne
    by_cases hi : i = fd <;> by_cases hj : j = fd
    · rw [hi, hj]
    · subst hi
      simp [Function.update_noteq hj] at hij
      have := hlt j
      omega
    · subst hj
      simp [Function.update_noteq hi] at hij
      have := hlt i
      omega
    · simp only [Function.update_noteq hi, Function.update_noteq hj] at hij hne
      exact hinj i j hij hne

/-- The method `del` keeps the invariant. -/
theorem ufd_inv_del (m : ufdmap_t) (g : Nat) (fd : Fin MAX_OPEN_FILES)
    (h : ufd_inv m g) : ufd_inv (m.del fd) g := by
  obtain ⟨h1, h2, hn, hlt, hinj⟩ := h
  refine ⟨h1, h2, hn, ?_, ?_⟩
  · intro i
    by_cases hi : i = fd
    · subst hi; simp [ufdmap_t.del]
      omega
    · simp only [ufdmap_t.del, Function.update_noteq hi]
      exact hlt i
  · intro i j hij hne
    by_cases hi : i = fd
    · subst hi; simp [ufdmap_t.del] at hne
    · by_cases hj : j = fd
      · subst hj
        simp only [ufdmap_t.del, Function.update_same, Function.update_noteq hi] at hij hne
        exact absurd hij hne
      · simp only [ufdmap_t.del, Function.update_noteq hi, Function.update_noteq hj] at hij hne
        exact hinj i j hij hne

/-- The invariant along a sequence of calls that does not wrap the counter. -/
theorem ufd_inv_run (ops : List ufd_op) (m : ufdmap_t) (g : Nat) (h : ufd_inv m g)
    (hb : g + m.fresh ops ≤ UFD_MOD) : ufd_inv (m.run ops) (g + m.fresh ops) := by
  induction ops generalizing m g with
  | nil => simpa [ufdmap_t.run, ufdmap_t.fresh] using h
  | cons op ops ih =>
    cases op with
    | get fd =>
      by_cases h0 : m.map fd = 0
      · rw [fresh_get_cons, if_pos h0] at hb ⊢
        have hs := ufd_inv_get_fresh m g fd h h0 (by omega)
        have := ih (m.get fd).2 (g + 1) hs.2 (by omega)
        simpa [ufdmap_t.run, ufdmap_t.step, Nat.add_assoc] using this
      · rw [fresh_get_cons, if_neg h0, Nat.zero_add] at hb ⊢
        have hs : (m.get fd).2 = m := by rw [get_of_assigned m fd h0]
        rw [hs] at hb ⊢
        have := ih m g h hb
        simpa [ufdmap_t.run, ufdmap_t.step, hs] using this
    | del fd =>
      simp only [ufdmap_t.fresh] at hb ⊢
      exact ih (m.del fd) g (ufd_inv_del m g fd h) hb

/-- Below the wrap every returned id is non-zero and below the final count. -/
theorem returns_bound (ops : List ufd_op) (m : ufdmap_t) (g : Nat) (h : ufd_inv m g)
    (hb : g + m.fresh ops ≤ UFD_MOD) :
    ∀ v ∈ m.returns ops, v ≠ 0 ∧ v < g + m.fresh ops := by
  induction ops generalizing m g with
  | nil => intro v hv; simp [ufdmap_t.returns] at hv
  | cons op ops ih =>
    cases op with
    | get fd =>
      by_cases h0 : m.map fd = 0
      · rw [fresh_get_cons, if_pos h0] at hb ⊢
        have hs := ufd_inv_get_fresh m g fd h h0 (by omega)
        have hr := ih (m.get fd).2 (g + 1) hs.2 (by omega)
        intro v hv
        simp only [ufdmap_t.returns, List.mem_cons] at hv
        rcases hv with hv | hv
        · rw [hv, hs.1]; have := h.1; omega
        · have := hr v hv; omega
      · have hs : m.get fd = (m.map fd, m) := get_of_assigned m fd h0
        rw [fresh_get_cons, if_neg h0, Nat.zero_add, hs] at hb ⊢
        intro v hv
        simp only [ufdmap_t.returns, hs, List.mem_cons] at hv
        rcases hv with hv | hv
        · rw [hv]; have := h.2.2.2.1 fd; omega
        · exact ih m g h hb v hv
    | del fd =>
      simp only [ufdmap_t.fresh] at hb ⊢
      intro v hv
      exact ih (m.del fd) g (ufd_inv_del m g fd h) hb v hv

/-- Opening and closing descriptor 0 `n` times on an empty table advances
the counter by `n` modulo `2 ^ 32` and leaves the table empty. -/
theorem run_churn (n k : Nat) (hk : k < UFD_MOD) :
    (ufdmap_t.mk (fun _ => 0) k).run (churn n) =
      ufdmap_t.mk (fun _ => 0) ((k + n) % UFD_MOD) := by
  induction n generalizing k with
  | zero => simp [churn, ufdmap_t.run, Nat.mod_eq_of_lt hk]
  | succ n ih =>
    have hstep : ((ufdmap_t.mk (fun _ => 0) k).step (ufd_op.get 0)).step (ufd_op.del 0) =
        ufdmap_t.mk (fun _ => 0) ((k + 1) % UFD_MOD) := by
      simp [ufdmap_t.step, ufdmap_t.get, ufdmap_t.del]
    show (((ufdmap_t.mk (fun _ => 0) k).step (ufd_op.get 0)).step (ufd_op.del 0)).run (churn n) = _
    rw [hstep, ih ((k + 1) % UFD_MOD) (Nat.mod_lt _ (by norm_num [UFD_MOD]))]
    congr 1
    unfold UFD_MOD
    omega

/-- The first call of a non-empty churn on an empty table returns the counter. -/
theorem returns_churn_succ (n k : Nat) :
    (ufdmap_t.mk (fun _ => 0) k).returns (churn (n + 1)) =
      k :: (ufdmap_t.mk (fun _ => 0) ((k + 1) % UFD_MOD)).returns (churn n) := by
  have hstep : ((ufdmap_t.mk (fun _ => 0) k).get 0).2.del 0 =
      ufdmap_t.mk (fun _ => 0) ((k + 1) % UFD_MOD) := by
    simp [ufdmap_t.get, ufdmap_t.del]
  show ((ufdmap_t.mk (fun _ => 0) k).get 0).1 ::
      (((ufdmap_t.mk (fun _ => 0) k).get 0).2.del 0).returns (churn n) = _
  rw [hstep]
  simp [ufdmap_t.get]

/-- Every round of a churn on an empty table is a fresh assignment. -/
theorem fresh_churn (n k : Nat) :
    (ufdmap_t.mk (fun _ => 0) k).fresh (churn n) = n := by
  induction n generalizing k with
  | zero => rfl
  | succ n ih =>
    have hstep : ((ufdmap_t.mk (fun _ => 0) k).get 0).2.del 0 =
        ufdmap_t.mk (fun _ => 0) ((k + 1) % UFD_MOD) := by
      simp [ufdmap_t.get, ufdmap_t.del]
    show (if (ufdmap_t.mk (fun _ => 0) k).map 0 = 0 then 1 else 0) +
      (((ufdmap_t.mk (fun _ => 0) k).get 0).2.del 0).fresh (churn n) = n + 1
    rw [hstep, ih]
    simp
    omega

/-- Calls other than `del(fd)` keep an assigned slot `fd` as it is. -/
theorem run_keeps_assigned (mid : List ufd_op) (m : ufdmap_t) (fd : Fin MAX_OPEN_FILES)
    (h : m.map fd ≠ 0) (hmid : ufd_op.del fd ∉ mid) :
    (m.run mid).map fd = m.map fd := by
  induction mid generalizing m with
  | nil => rfl
  | cons op ops ih =>
    have hops : ufd_op.del fd ∉ ops := fun hh => hmid (List.mem_cons_of_mem _ hh)
    have hop : ufd_op.del fd ≠ op := fun hh => hmid (hh ▸ List.mem_cons_self _ _)
    have hstep : (m.step op).map fd = m.map fd := by
      cases op with
      | get c =>
        by_cases hc : m.map c = 0
        · have hne : fd ≠ c := fun e => h (e ▸ hc)
          simp [ufdmap_t.step, get_of_unassigned m c hc, Function.update_noteq hne]
        · simp [ufdmap_t.step, get_of_assigned m c hc]
      | del c =>
        have hne : fd ≠ c := fun e => hop (by rw [e])
        simp [ufdmap_t.step, ufdmap_t.del, Function.update_noteq hne]
    show ((m.step op).run ops).map fd = m.map fd
    rw [ih (m.step op) (by rw [hstep]; exact h) hops, hstep]

/-- After `get(fd)` the slot holds the returned value. -/
theorem get_slot (m : ufdmap_t) (fd : Fin MAX_OPEN_FILES) :
    (m.get fd).2.map fd = (m.get fd).1 := rfl

/-- The value `get` returns is non-zero unless the slot is unassigned and
the counter is `0`. -/
theorem get_ne_zero (m : ufdmap_t) (fd : Fin MAX_OPEN_FILES)
    (hv : m.map fd ≠ 0 ∨ m.next ≠ 0) : (m.get fd).1 ≠ 0 := by
  by_cases h0 : m.map fd = 0
  · rw [get_of_unassigned m fd h0]
    rcases hv with hv | hv
    · exact absurd h0 hv
    · exact hv
  · rw [get_of_assigned m fd h0]; exact h0

/-- C4 fails as stated: in the table reached from start-up by `2 ^ 32 - 1`
rounds of `get(0); del(0)` the counter has wrapped to `0`; there `get(0)`
returns `0`, the next `get(0)` returns `1`, and that second call changes the
table. -/
theorem get_twice_counterexample :
    ufdmap.run (churn (UFD_MOD - 1)) = ufdmap_t.mk (fun _ => 0) 0 ∧
    ((ufdmap_t.mk (fun _ => 0) 0).get 0).1 = 0 ∧
    (((ufdmap_t.mk (fun _ => 0) 0).get 0).2.get 0).1 = 1 ∧
    (((ufdmap_t.mk (fun _ => 0) 0).get 0).2.get 0).2.next ≠
      ((ufdmap_t.mk (fun _ => 0) 0).get 0).2.next := by
  refine ⟨?_, by decide, by decide, by decide⟩
  have h := run_churn (UFD_MOD - 1) 1 (by norm_num [UFD_MOD])
  have e : (1 + (UFD_MOD - 1)) % UFD_MOD = 0 := by norm_num [UFD_MOD]
  rw [e] at h
  exact h

/-- C4 (amended): if slot `fd` is assigned or the counter `next` is not `0`,
then after `get(fd)` and any calls other than `del(fd)`, a second `get(fd)`
returns the same virtual id and leaves map and counter unchanged. -/
theorem get_twice_same (m : ufdmap_t) (fd : Fin MAX_OPEN_FILES) (mid : List ufd_op)
    (hmid : ufd_op.del fd ∉ mid) (hv : m.map fd ≠ 0 ∨ m.next ≠ 0) :
    (((m.get fd).2.run mid).get fd).1 = (m.get fd).1 ∧
      (((m.get fd).2.run mid).get fd).2 = (m.get fd).2.run mid := by
  have h1 : (m.get fd).2.map fd ≠ 0 := by rw [get_slot]; exact get_ne_zero m fd hv
  have h2 := run_keeps_assigned mid (m.get fd).2 fd h1 hmid
  have h3 : ((m.get fd).2.run mid).map fd ≠ 0 := by rw [h2]; exact h1
  rw [get_of_assigned _ fd h3]
  exact ⟨by rw [h2, get_slot], rfl⟩

/-- Witness for C4 (amended): descriptor 5 on the start-up table, with a
call on descriptor 6 and a repeated call on 5 in between. -/
theorem get_twice_same_witness :
    ufd_op.del 5 ∉ [ufd_op.get 6, ufd_op.del 6, ufd_op.get 5] ∧
    (ufdmap.map 5 ≠ 0 ∨ ufdmap.next ≠ 0) ∧
    (((ufdmap.get 5).2.run [ufd_op.get 6, ufd_op.del 6, ufd_op.get 5]).get 5).1 =
        (ufdmap.get 5).1 ∧
      (((ufdmap.get 5).2.run [ufd_op.get 6, ufd_op.del 6, ufd_op.get 5]).get 5).2 =
        (ufdmap.get 5).2.run [ufd_op.get 6, ufd_op.del 6, ufd_op.get 5] :=
  ⟨by decide, Or.inr (by decide),
    get_twice_same ufdmap 5 [ufd_op.get 6, ufd_op.del 6, ufd_op.get 5] (by decide)
      (Or.inr (by decide))⟩

/-- C5 fails as stated: after `2 ^ 32 - 1` rounds of `get(0); del(0)` from
start-up, slot 0 is unassigned and `get(0)` returns `0`, which is not greater
than the id `1` returned by the first call; and the fresh assignment after
`2 ^ 32 - 2` rounds takes the counter from `2 ^ 32 - 1` down to `0`. -/
theorem fresh_get_wrap_counterexample :
    (ufdmap.run (churn (UFD_MOD - 1))).map 0 = 0 ∧
    1 ∈ ufdmap.returns (churn (UFD_MOD - 1)) ∧
    ((ufdmap.run (churn (UFD_MOD - 1))).get 0).1 = 0 ∧
    (ufdmap.run (churn (UFD_MOD - 2))).next = UFD_MOD - 1 ∧
    ((ufdmap.run (churn (UFD_MOD - 2))).step (ufd_op.get 0)).next = 0 := by
  have h1 : ufdmap.run (churn (UFD_MOD - 1)) = ufdmap_t.mk (fun _ => 0) 0 := by
    have h := run_churn (UFD_MOD - 1) 1 (by norm_num [UFD_MOD])
    have e : (1 + (UFD_MOD - 1)) % UFD_MOD = 0 := by norm_num [UFD_MOD]
    rw [e] at h
    exact h
  have h2 : ufdmap.run (churn (UFD_MOD - 2)) = ufdmap_t.mk (fun _ => 0) (UFD_MOD - 1) := by
    have h := run_churn (UFD_MOD - 2) 1 (by norm_num [UFD_MOD])
    have e : (1 + (UFD_MOD - 2)) % UFD_MOD = UFD_MOD - 1 := by norm_num [UFD_MOD]
    rw [e] at h
    exact h
  have h3 : ufdmap.returns (churn (UFD_MOD - 2 + 1)) =
      1 :: (ufdmap_t.mk (fun _ => 0) ((1 + 1) % UFD_MOD)).returns (churn (UFD_MOD - 2)) :=
    returns_churn_succ (UFD_MOD - 2) 1
  have e3 : UFD_MOD - 2 + 1 = UFD_MOD - 1 := by norm_num [UFD_MOD]
  rw [e3] at h3
  rw [h1, h2, h3]
  refine ⟨rfl, List.mem_cons_self _ _, by decide, rfl, ?_⟩
  show ((ufdmap_t.mk (fun _ => 0) (UFD_MOD - 1)).get 0).2.next = 0
  rw [get_of_unassigned _ 0 rfl]
  norm_num [UFD_MOD]

/-- C5 (amended): from start-up, a `get` on an unassigned slot returns an id
strictly greater than every id returned earlier as long as the sequence,
this call included, has at most `2 ^ 32 - 1` fresh assignments; and a call
does not decrement `next` as long as the sequence, this call included, has
fewer than `2 ^ 32 - 1` fresh assignments. -/
theorem fresh_get_greater (pre : List ufd_op) (op : ufd_op) :
    (ufdmap.fresh (pre ++ [op]) < UFD_MOD →
      ∀ fd, op = ufd_op.get fd → (ufdmap.run pre).map fd = 0 →
        ∀ v ∈ ufdmap.returns pre, v < ((ufdmap.run pre).get fd).1) ∧
    (ufdmap.fresh (pre ++ [op]) < UFD_MOD - 1 →
      (ufdmap.run pre).next ≤ ((ufdmap.run pre).step op).next) := by
  have hsplit := fresh_append ufdmap pre [op]
  constructor
  · intro hb fd hop h0 v hv
    subst hop
    rw [hsplit, fresh_get_cons, if_pos h0] at hb
    have hinv := ufd_inv_run pre ufdmap 1 ufd_inv_init (by omega)
    have hret := returns_bound pre ufdmap 1 ufd_inv_init (by omega) v hv
    have hg := ufd_inv_get_fresh (ufdmap.run pre) (1 + ufdmap.fresh pre) fd hinv h0 (by omega)
    rw [hg.1]
    exact hret.2
  · intro hb
    rw [hsplit] at hb
    have hinv := ufd_inv_run pre ufdmap 1 ufd_inv_init (by omega)
    cases op with
    | get fd =>
      by_cases h0 : (ufdmap.run pre).map fd = 0
      · rw [fresh_get_cons, if_pos h0] at hb
        have hg := ufd_inv_get_fresh (ufdmap.run pre) (1 + ufdmap.fresh pre) fd hinv h0
          (by omega)
        have hn := hinv.2.2.1
        have hn2 := hg.2.2.2.1
        show (ufdmap.run pre).next ≤ ((ufdmap.run pre).get fd).2.next
        rw [hn, hn2, Nat.mod_eq_of_lt (by omega), Nat.mod_eq_of_lt (by omega)]
        omega
      · show (ufdmap.run pre).next ≤ ((ufdmap.run pre).get fd).2.next
        rw [get_of_assigned _ fd h0]
    | del fd => exact le_refl _

/-- Witness for C5 (amended): descriptor 3 is assigned, released and
assigned again after descriptor 4. -/
theorem fresh_get_greater_witness :
    ufdmap.fresh ([ufd_op.get 3, ufd_op.get 4, ufd_op.del 3] ++ [ufd_op.get 3]) < UFD_MOD ∧
    (ufdmap.run [ufd_op.get 3, ufd_op.get 4, ufd_op.del 3]).map 3 = 0 ∧
    ∀ v ∈ ufdmap.returns [ufd_op.get 3, ufd_op.get 4, ufd_op.del 3],
      v < ((ufdmap.run [ufd_op.get 3, ufd_op.get 4, ufd_op.del 3]).get 3).1 :=
  ⟨by decide, by decide,
    (fresh_get_greater [ufd_op.get 3, ufd_op.get 4, ufd_op.del 3] (ufd_op.get 3)).1
      (by decide) 3 rfl (by decide)⟩

/-- The method `get(fd)` leaves every other slot as it is. -/
theorem get_map_other (m : ufdmap_t) (fd i : Fin MAX_OPEN_FILES) (hi : i ≠ fd) :
    (m.get fd).2.map i = m.map i := by
  by_cases h0 : m.map fd = 0
  · simp [get_of_unassigned m fd h0, Function.update_noteq hi]
  · simp [get_of_assigned m fd h0]

/-- The method `del(fd)` leaves every other slot as it is. -/
theorem del_map_other (m : ufdmap_t) (fd i : Fin MAX_OPEN_FILES) (hi : i ≠ fd) :
    (m.del fd).map i = m.map i := by
  simp [ufdmap_t.del, Function.update_noteq hi]

/-- The method `del(fd)` clears slot `fd`. -/
theorem del_map_same (m : ufdmap_t) (fd : Fin MAX_OPEN_FILES) : (m.del fd).map fd = 0 := by
  simp [ufdmap_t.del]

/-- Below the wrap, a non-zero id that is below the count and held by no
slot is never returned again. -/
theorem dead_id_not_returned (ops : List ufd_op) (m : ufdmap_t) (g v : Nat)
    (h : ufd_inv m g) (hb : g + m.fresh ops ≤ UFD_MOD) (hv : v < g) (hv0 : v ≠ 0)
    (hdead : ∀ i, m.map i ≠ v) : ∀ w ∈ m.returns ops, w ≠ v := by
  induction ops generalizing m g with
  | nil => intro w hw; simp [ufdmap_t.returns] at hw
  | cons op ops ih =>
    cases op with
    | get fd =>
      by_cases h0 : m.map fd = 0
      · rw [fresh_get_cons, if_pos h0] at hb
        have hs := ufd_inv_get_fresh m g fd h h0 (by omega)
        have hdead2 : ∀ i, (m.get fd).2.map i ≠ v := by
          intro i
          by_cases hi : i = fd
          · subst hi; rw [get_slot, hs.1]; omega
          · rw [get_map_other m fd i hi]; exact hdead i
        have hr := ih (m.get fd).2 (g + 1) hs.2 (by omega) (by omega) hdead2
        intro w hw
        simp only [ufdmap_t.returns, List.mem_cons] at hw
        rcases hw with hw | hw
        · rw [hw, hs.1]; omega
        · exact hr w hw
      · have hs : m.get fd = (m.map fd, m) := get_of_assigned m fd h0
        rw [fresh_get_cons, if_neg h0, Nat.zero_add, hs] at hb
        intro w hw
        simp only [ufdmap_t.returns, hs, List.mem_cons] at hw
        rcases hw with hw | hw
        · rw [hw]; exact hdead fd
        · exact ih m g h hb hv hdead w hw
    | del fd =>
      have hdead2 : ∀ i, (m.del fd).map i ≠ v := by
        intro i
        by_cases hi : i = fd
        · subst hi; rw [del_map_same]; exact fun e => hv0 e.symm
        · rw [del_map_other m fd i hi]; exact hdead i
      intro w hw
      exact ih (m.del fd) g (ufd_inv_del m g fd h) hb hv hdead2 w hw

/-- Below the wrap, if slot `a` holds the non-zero id `v` and a later
`get(b)` returns `v`, then `b` is `a` and no `del(a)` came in between. -/
theorem live_id_returned (mid : List ufd_op) (m : ufdmap_t) (g v : Nat)
    (a b : Fin MAX_OPEN_FILES) (h : ufd_inv m g)
    (hb : g + m.fresh (mid ++ [ufd_op.get b]) ≤ UFD_MOD) (ha : m.map a = v) (hv0 : v ≠ 0)
    (heq : ((m.run mid).get b).1 = v) : a = b ∧ ufd_op.del a ∉ mid := by
  induction mid generalizing m g with
  | nil =>
    refine ⟨?_, List.not_mem_nil _⟩
    simp only [ufdmap_t.run] at heq
    by_cases h0 : m.map b = 0
    · rw [List.nil_append, fresh_get_cons, if_pos h0] at hb
      have hs := ufd_inv_get_fresh m g b h h0 (by simp [ufdmap_t.fresh] at hb; omega)
      have := h.2.2.2.1 a
      rw [hs.1] at heq
      omega
    · rw [get_of_assigned m b h0] at heq
      exact h.2.2.2.2 a b (by rw [ha]; exact heq.symm) (by rw [ha]; exact hv0)
  | cons op ops ih =>
    cases op with
    | get c =>
      have hmap : (m.get c).2.map a = v := by
        by_cases hc : a = c
        · subst hc
          rw [get_of_assigned m a (by rw [ha]; exact hv0)]; exact ha
        · rw [get_map_other m c a hc]; exact ha
      by_cases h0 : m.map c = 0
      · rw [List.cons_append, fresh_get_cons, if_pos h0] at hb
        have hs := ufd_inv_get_fresh m g c h h0 (by omega)
        have := ih (m.get c).2 (g + 1) hs.2 (by omega) hmap heq
        exact ⟨this.1, by simp [this.2]⟩
      · have hs : m.get c = (m.map c, m) := get_of_assigned m c h0
        rw [List.cons_append, fresh_get_cons, if_neg h0, Nat.zero_add] at hb
        have hinv2 : ufd_inv (m.get c).2 g := by rw [hs]; exact h
        have := ih (m.get c).2 g hinv2 hb hmap heq
        exact ⟨this.1, by simp [this.2]⟩
    | del c =>
      by_cases hc : a = c
      · subst hc
        exfalso
        have hdead : ∀ i, (m.del a).map i ≠ v := by
          intro i
          by_cases hi : i = a
          · subst hi; rw [del_map_same]; exact fun e => hv0 e.symm
          · rw [del_map_other m a i hi]
            intro e
            exact hi (h.2.2.2.2 i a (by rw [e, ha]) (by rw [e]; exact hv0))
        have hvg : v < g := by rw [← ha]; exact h.2.2.2.1 a
        have hmem : ((m.del a).run ops |>.get b).1 ∈ (m.del a).returns (ops ++ [ufd_op.get b]) := by
          rw [returns_append]
          simp [ufdmap_t.returns]
        exact dead_id_not_returned (ops ++ [ufd_op.get b]) (m.del a) g v
          (ufd_inv_del m g a h) hb hvg hv0 hdead _ hmem heq
      · have hmap : (m.del c).map a = v := by rw [del_map_other m c a hc]; exact ha
        have := ih (m.del c) g (ufd_inv_del m g c h) hb hmap heq
        refine ⟨this.1, ?_⟩
        intro hmem
        rcases List.mem_cons.mp hmem with e | e
        · exact hc (by injection e)
        · exact this.2 e

/-- C6 fails as stated: from start-up, the `get(0)` after `2 ^ 32 - 1` rounds
of `get(0); del(0)` returns the virtual id `0`, and the `get(0)` after
`2 ^ 32` rounds returns `1`, the id the very first call returned, although
`del(0)` calls lie in between. -/
theorem returns_zero_counterexample :
    (0 : Nat) ∈ ufdmap.returns (churn (UFD_MOD - 1) ++ [ufd_op.get 0]) ∧
    (ufdmap.get 0).1 = 1 ∧
    ((ufdmap.run (ufd_op.get 0 :: ufd_op.del 0 :: churn (UFD_MOD - 1))).get 0).1 = 1 := by
  have h1 : ufdmap.run (churn (UFD_MOD - 1)) = ufdmap_t.mk (fun _ => 0) 0 := by
    have h := run_churn (UFD_MOD - 1) 1 (by norm_num [UFD_MOD])
    have e : (1 + (UFD_MOD - 1)) % UFD_MOD = 0 := by norm_num [UFD_MOD]
    rw [e] at h
    exact h
  have h2 : ufdmap.run (ufd_op.get 0 :: ufd_op.del 0 :: churn (UFD_MOD - 1)) =
      ufdmap_t.mk (fun _ => 0) 1 := by
    have h := run_churn (UFD_MOD - 1 + 1) 1 (by norm_num [UFD_MOD])
    have e : (1 + (UFD_MOD - 1 + 1)) % UFD_MOD = 1 := by norm_num [UFD_MOD]
    rw [e] at h
    exact h
  refine ⟨?_, by decide, ?_⟩
  · rw [returns_append, h1]
    apply List.mem_append_right
    simp [ufdmap_t.returns, ufdmap_t.get]
  · rw [h2]; decide

/-- C6 (amended): from start-up, in a sequence of calls with at most
`2 ^ 32 - 1` fresh assignments every value `get` returns is non-zero, and two
`get` calls return the same virtual id only if they are on the same
descriptor number with no `del` of that descriptor between them. -/
theorem returns_nonzero_unique (ops : List ufd_op) (hb : ufdmap.fresh ops < UFD_MOD) :
    (∀ v ∈ ufdmap.returns ops, v ≠ 0) ∧
    (∀ pre a mid b post, ops = pre ++ ufd_op.get a :: (mid ++ ufd_op.get b :: post) →
      ((ufdmap.run pre).get a).1 = ((ufdmap.run (pre ++ ufd_op.get a :: mid)).get b).1 →
      a = b ∧ ufd_op.del a ∉ mid) := by
  constructor
  · intro v hv
    exact (returns_bound ops ufdmap 1 ufd_inv_init (by omega) v hv).1
  · intro pre a mid b post hops heq
    have hf : ufdmap.fresh ops = ufdmap.fresh pre +
        ((if (ufdmap.run pre).map a = 0 then 1 else 0) +
          (((ufdmap.run pre).get a).2.fresh (mid ++ [ufd_op.get b]) +
            ((((ufdmap.run pre).get a).2.run (mid ++ [ufd_op.get b])).fresh post))) := by
      have e : pre ++ ufd_op.get a :: (mid ++ ufd_op.get b :: post) =
          pre ++ (ufd_op.get a :: ((mid ++ [ufd_op.get b]) ++ post)) := by simp
      rw [hops, e, fresh_append, fresh_get_cons, fresh_append]
    rw [hf] at hb
    have hinv := ufd_inv_run pre ufdmap 1 ufd_inv_init (by omega)
    have hrun : ufdmap.run (pre ++ ufd_op.get a :: mid) = ((ufdmap.run pre).get a).2.run mid := by
      rw [run_append]; rfl
    rw [hrun] at heq
    by_cases h0 : (ufdmap.run pre).map a = 0
    · rw [if_pos h0] at hb
      have hs := ufd_inv_get_fresh (ufdmap.run pre) (1 + ufdmap.fresh pre) a hinv h0 (by omega)
      have hv0 : ((ufdmap.run pre).get a).1 ≠ 0 := by rw [hs.1]; omega
      exact live_id_returned mid ((ufdmap.run pre).get a).2 (1 + ufdmap.fresh pre + 1)
        ((ufdmap.run pre).get a).1 a b hs.2 (by omega) (get_slot _ a) hv0 heq.symm
    · rw [if_neg h0] at hb
      have hs : (ufdmap.run pre).get a = ((ufdmap.run pre).map a, ufdmap.run pre) :=
        get_of_assigned _ a h0
      have hinv2 : ufd_inv ((ufdmap.run pre).get a).2 (1 + ufdmap.fresh pre) := by
        rw [hs]; exact hinv
      have hv0 : ((ufdmap.run pre).get a).1 ≠ 0 := by rw [hs]; exact h0
      exact live_id_returned mid ((ufdmap.run pre).get a).2 (1 + ufdmap.fresh pre)
        ((ufdmap.run pre).get a).1 a b hinv2 (by omega) (get_slot _ a) hv0 heq.symm

/-- Witness for C6 (amended): descriptor 3 assigned, released and assigned
again, with descriptor 4 in between. -/
theorem returns_nonzero_unique_witness :
    ufdmap.fresh [ufd_op.get 3, ufd_op.get 4, ufd_op.del 3, ufd_op.get 3] < UFD_MOD ∧
    (∀ v ∈ ufdmap.returns [ufd_op.get 3, ufd_op.get 4, ufd_op.del 3, ufd_op.get 3], v ≠ 0) :=
  ⟨by decide,
    (returns_nonzero_unique [ufd_op.get 3, ufd_op.get 4, ufd_op.del 3, ufd_op.get 3]
      (by decide)).1⟩

/-- C7 fails as stated: for the descriptor numbers `1024` and `-1` the call
`get` reports no fatal error; the source has no test of `fd`, and the array
access has no defined behaviour. -/
theorem get_out_of_range_counterexample :
    ufdmap.get_int 1024 = Outcome.undefined ∧ ufdmap.get_int 1024 ≠ Outcome.fatal ∧
    ufdmap.get_int (-1) = Outcome.undefined ∧ ufdmap.get_int (-1) ≠ Outcome.fatal := by
  have h1 : ufdmap.get_int 1024 = Outcome.undefined := by simp [ufdmap_t.get_int]
  have h2 : ufdmap.get_int (-1) = Outcome.undefined := by simp [ufdmap_t.get_int]
  refine ⟨h1, ?_, h2, ?_⟩
  · rw [h1]; exact fun e => Outcome.noConfusion e
  · rw [h2]; exact fun e => Outcome.noConfusion e

/-- C7 (amended): `get` never reports a fatal error.  For a descriptor number
outside `0 <= fd < MAX_OPEN_FILES` the call has no defined behaviour (the
array is indexed without a test); for a descriptor number inside the range
the call returns a virtual id and a table. -/
theorem get_int_outcome (m : ufdmap_t) (fd : Int) :
    m.get_int fd ≠ Outcome.fatal ∧
    ((fd < 0 ∨ (MAX_OPEN_FILES : Int) ≤ fd) → m.get_int fd = Outcome.undefined) ∧
    (∀ h : 0 ≤ fd ∧ fd < (MAX_OPEN_FILES : Int),
      m.get_int fd = Outcome.returned (m.get ⟨fd.toNat, by omega⟩)) := by
  refine ⟨?_, ?_, ?_⟩
  · unfold ufdmap_t.get_int
    split <;> exact fun e => Outcome.noConfusion e
  · intro h
    have : ¬ (0 ≤ fd ∧ fd < (MAX_OPEN_FILES : Int)) := by omega
    simp only [ufdmap_t.get_int, this, dif_neg, not_false_eq_true]
  · intro h
    simp only [ufdmap_t.get_int, h, and_self, dif_pos]

/-- Witness for C7 (amended): descriptor number `1024` on the start-up table. -/
theorem get_int_outcome_witness :
    ((1024 : Int) < 0 ∨ (MAX_OPEN_FILES : Int) ≤ 1024) ∧
      ufdmap.get_int 1024 = Outcome.undefined :=
  ⟨Or.inr (by decide), (get_int_outcome ufdmap 1024).2.1 (Or.inr (by decide))⟩

/-! ## Theorems: `in_dtracker_whitelist` -/

/-- A branch of ordinary characters matches here exactly when the string
starts with them. -/
theorem match_here_chars (lits : List Char) (st : Bool) (s : List Char) :
    match_here (lits.map re_atom.chr) st s = true ↔ lits <+: s := by
  induction lits generalizing st s with
  | nil => simp [match_here]
  | cons c lits ih =>
    cases s with
    | nil => simp [match_here]
    | cons d s => simp [match_here, ih, List.cons_prefix_cons]

/-- A branch of ordinary characters closed by `$` matches here exactly when
the rest of the string is these characters. -/
theorem match_here_chars_eol (lits : List Char) (st : Bool) (s : List Char) :
    match_here (lits.map re_atom.chr ++ [re_atom.eol]) st s = true ↔ s = lits := by
  induction lits generalizing st s with
  | nil => cases s <;> simp [match_here]
  | cons c lits ih =>
    cases s with
    | nil => simp [match_here]
    | cons d s =>
      have hstep : match_here (List.map re_atom.chr (c :: lits) ++ [re_atom.eol]) st (d :: s) =
          (c == d && match_here (lits.map re_atom.chr ++ [re_atom.eol]) false s) := rfl
      rw [hstep, Bool.and_eq_true, beq_iff_eq, ih, List.cons.injEq]
      constructor
      · rintro ⟨h1, h2⟩; exact ⟨h1.symm, h2⟩
      · rintro ⟨h1, h2⟩; exact ⟨h1.symm, h2⟩

/-- A branch opened by `^` matches here exactly when the position is the start
of the string and the rest of the branch matches. -/
theorem match_here_bol (b : List re_atom) (st : Bool) (s : List Char) :
    match_here (re_atom.bol :: b) st s = (st && match_here b st s) := by
  cases s <;> rfl

/-- The search of `regexec`: some branch matches at some split of the string;
the position is the start of the string only for the empty split. -/
theorem regexec_from_iff (re : regex_t) (st : Bool) (s : List Char) :
    regexec_from re st s = true ↔
      ∃ b ∈ re, ∃ pre suf, s = pre ++ suf ∧
        match_here b (st && pre.isEmpty) suf = true := by
  induction s generalizing st with
  | nil =>
    simp only [regexec_from, List.any_eq_true]
    constructor
    · rintro ⟨b, hb, hm⟩
      exact ⟨b, hb, [], [], rfl, by simpa using hm⟩
    · rintro ⟨b, hb, pre, suf, hs, hm⟩
      have hp : pre = [] := (List.append_eq_nil.mp hs.symm).1
      have hq : suf = [] := (List.append_eq_nil.mp hs.symm).2
      subst hp; subst hq
      exact ⟨b, hb, by simpa using hm⟩
  | cons c s ih =>
    simp only [regexec_from, Bool.or_eq_true, List.any_eq_true, ih]
    constructor
    · rintro (⟨b, hb, hm⟩ | ⟨b, hb, pre, suf, hs, hm⟩)
      · exact ⟨b, hb, [], c :: s, rfl, by simpa using hm⟩
      · exact ⟨b, hb, c :: pre, suf, by rw [hs]; rfl, by simpa using hm⟩
    · rintro ⟨b, hb, pre, suf, hs, hm⟩
      cases pre with
      | nil =>
        left
        simp only [List.nil_append] at hs
        subst hs
        exact ⟨b, hb, by simpa using hm⟩
      | cons p pre =>
        right
        simp only [List.cons_append, List.cons.injEq] at hs
        exact ⟨b, hb, pre, suf, hs.2, by simpa using hm⟩

/-- Search for a branch of ordinary characters: the characters occur in the
string. -/
theorem regexec_from_chars (lits : List Char) (st : Bool) (s : List Char) :
    regexec_from [lits.map re_atom.chr] st s = true ↔ lits <:+: s := by
  rw [regexec_from_iff]
  constructor
  · rintro ⟨b, hb, pre, suf, hs, hm⟩
    rw [List.mem_singleton] at hb
    subst hb
    obtain ⟨t, ht⟩ := (match_here_chars lits _ suf).mp hm
    exact ⟨pre, t, by rw [hs, ← ht, List.append_assoc]⟩
  · rintro ⟨pre, t, hs⟩
    refine ⟨_, List.mem_singleton.mpr rfl, pre, lits ++ t, by rw [← hs, List.append_assoc], ?_⟩
    exact (match_here_chars lits _ _).mpr ⟨t, rfl⟩

/-- Search for a branch of ordinary characters closed by `$`: the string ends
with the characters. -/
theorem regexec_from_chars_eol (lits : List Char) (st : Bool) (s : List Char) :
    regexec_from [lits.map re_atom.chr ++ [re_atom.eol]] st s = true ↔ lits <:+ s := by
  rw [regexec_from_iff]
  constructor
  · rintro ⟨b, hb, pre, suf, hs, hm⟩
    rw [List.mem_singleton] at hb
    subst hb
    have := (match_here_chars_eol lits _ suf).mp hm
    exact ⟨pre, by rw [hs, this]⟩
  · rintro ⟨pre, hs⟩
    exact ⟨_, List.mem_singleton.mpr rfl, pre, lits, hs.symm,
      (match_here_chars_eol lits _ _).mpr rfl⟩

/-- Search, from the start of the string, for a branch `^` followed by
ordinary characters: the string starts with the characters. -/
theorem regexec_from_bol_chars (lits : List Char) (s : List Char) :
    regexec_from [re_atom.bol :: lits.map re_atom.chr] true s = true ↔ lits <+: s := by
  rw [regexec_from_iff]
  constructor
  · rintro ⟨b, hb, pre, suf, hs, hm⟩
    rw [List.mem_singleton] at hb
    subst hb
    rw [match_here_bol, Bool.and_eq_true] at hm
    have hp : pre = [] := by simpa using hm.1
    subst hp
    rw [hs]
    exact (match_here_chars lits _ suf).mp hm.2
  · intro h
    refine ⟨_, List.mem_singleton.mpr rfl, [], s, rfl, ?_⟩
    rw [match_here_bol]
    simpa using (match_here_chars lits _ s).mpr h

/-- The search over several branches is the disjunction of the searches. -/
theorem regexec_from_cons (b b2 : List re_atom) (re : regex_t) (st : Bool) (s : List Char) :
    regexec_from (b :: b2 :: re) st s =
      (regexec_from [b] st s || regexec_from (b2 :: re) st s) := by
  induction s generalizing st with
  | nil => simp [regexec_from]
  | cons c s ih =>
    simp only [regexec_from, List.any_cons, List.any_nil, Bool.or_false]
    rw [ih false]
    cases match_here b st (c :: s) <;> cases regexec_from [b] false s <;> simp

/-- The return value of `regexec` is 0 exactly when the search succeeds. -/
theorem regexec_eq_zero (re : regex_t) (s : List Char) :
    regexec re s = 0 ↔ regexec_from re true s = true := by
  unfold regexec REG_NOMATCH
  by_cases h : regexec_from re true s = true <;> simp [h]

/-- The Linux file pattern compiles to the branches `\.so$` and `\.so\.`. -/
theorem regcomp_linux_file :
    regcomp true "\\.so$|\\.so\\." =
      some [[re_atom.chr '.', re_atom.chr 's', re_atom.chr 'o', re_atom.eol],
        [re_atom.chr '.', re_atom.chr 's', re_atom.chr 'o', re_atom.chr '.']] := by
  decide

/-- The Linux directory pattern compiles to five anchored branches. -/
theorem regcomp_linux_path :
    regcomp true "^/proc/|^/lib/|^/usr/lib/|^/etc/|^/usr/share/" =
      some [re_atom.bol :: "/proc/".data.map re_atom.chr,
        re_atom.bol :: "/lib/".data.map re_atom.chr,
        re_atom.bol :: "/usr/lib/".data.map re_atom.chr,
        re_atom.bol :: "/etc/".data.map re_atom.chr,
        re_atom.bol :: "/usr/share/".data.map re_atom.chr] := by
  decide

/-- The Linux file pattern finds a match in `s` exactly when `s` ends with
`.so` or holds `.so.` somewhere. -/
theorem regexec_linux_file (s : List Char) :
    regexec [[re_atom.chr '.', re_atom.chr 's', re_atom.chr 'o', re_atom.eol],
        [re_atom.chr '.', re_atom.chr 's', re_atom.chr 'o', re_atom.chr '.']] s = 0 ↔
      (".so".data <:+ s ∨ ".so.".data <:+: s) := by
  rw [regexec_eq_zero, regexec_from_cons, Bool.or_eq_true]
  have h1 := regexec_from_chars_eol ".so".data true s
  have h2 := regexec_from_chars ".so.".data true s
  exact or_congr h1 h2

/-- The Linux directory pattern finds a match in `s` exactly when `s` starts
with one of the five system directories. -/
theorem regexec_linux_path (s : List Char) :
    regexec [re_atom.bol :: "/proc/".data.map re_atom.chr,
        re_atom.bol :: "/lib/".data.map re_atom.chr,
        re_atom.bol :: "/usr/lib/".data.map re_atom.chr,
        re_atom.bol :: "/etc/".data.map re_atom.chr,
        re_atom.bol :: "/usr/share/".data.map re_atom.chr] s = 0 ↔
      ("/proc/".data <+: s ∨ "/lib/".data <+: s ∨ "/usr/lib/".data <+: s ∨
        "/etc/".data <+: s ∨ "/usr/share/".data <+: s) := by
  rw [regexec_eq_zero]
  simp only [regexec_from_cons, Bool.or_eq_true, regexec_from_bol_chars]

/-- The file check under Linux with memory available: `status` is the result
of `regexec` on the basename. -/
theorem check_file_patterns_linux (env : libc_env) (hs : env.strdup_file = true)
    (hr : env.regcomp_file = true) (p : String) :
    check_file_patterns TARGET_LINUX env p = some 0 ↔
      (".so".data <:+ basename (c_str p) ∨ ".so.".data <:+: basename (c_str p)) := by
  simp only [check_file_patterns, TARGET_LINUX, hs, hr, if_true, regcomp_linux_file,
    Option.some.injEq]
  exact regexec_linux_file _

/-- The directory check under Linux with memory available: `status` is the
result of `regexec` on the dirname followed by `/`. -/
theorem check_dir_patterns_linux (env : libc_env) (hs : env.strdup_path = true)
    (hm : env.malloc_path = true) (hr : env.regcomp_path = true) (p : String) :
    check_dir_patterns TARGET_LINUX env p = some 0 ↔
      ("/proc/".data <+: dirname (c_str p) ++ ['/'] ∨
        "/lib/".data <+: dirname (c_str p) ++ ['/'] ∨
        "/usr/lib/".data <+: dirname (c_str p) ++ ['/'] ∨
        "/etc/".data <+: dirname (c_str p) ++ ['/'] ∨
        "/usr/share/".data <+: dirname (c_str p) ++ ['/']) := by
  simp only [check_dir_patterns, TARGET_LINUX, hs, hm, hr, if_true, regcomp_linux_path,
    Option.some.injEq]
  exact regexec_linux_path _

/-- C8: under the Linux configuration, with allocation and pattern
compilation succeeding, `in_dtracker_whitelist(p)` returns 1 if and only if
the basename of `p` ends with `.so` or holds `.so.` somewhere, or the dirname
of `p` followed by one `/` starts with one of `/proc/`, `/lib/`, `/usr/lib/`,
`/etc/`, `/usr/share/`; otherwise it returns 0.  Matching is case-sensitive
(`libc.SO` does not match) and looks for an occurrence, not for equality of
the whole string (`libc.so.6` matches). -/
theorem whitelist_linux_iff (p : String) :
    (in_dtracker_whitelist TARGET_LINUX libc_env.ok p = 1 ↔
      ((".so".data <:+ basename (c_str p) ∨ ".so.".data <:+: basename (c_str p)) ∨
        ("/proc/".data <+: dirname (c_str p) ++ ['/'] ∨
          "/lib/".data <+: dirname (c_str p) ++ ['/'] ∨
          "/usr/lib/".data <+: dirname (c_str p) ++ ['/'] ∨
          "/etc/".data <+: dirname (c_str p) ++ ['/'] ∨
          "/usr/share/".data <+: dirname (c_str p) ++ ['/']))) ∧
    (in_dtracker_whitelist TARGET_LINUX libc_env.ok p = 1 ∨
      in_dtracker_whitelist TARGET_LINUX libc_env.ok p = 0) ∧
    in_dtracker_whitelist TARGET_LINUX libc_env.ok "/home/u/libc.SO" = 0 ∧
    in_dtracker_whitelist TARGET_LINUX libc_env.ok "/home/u/libc.so.6" = 1 ∧
    in_dtracker_whitelist TARGET_LINUX libc_env.ok "/ETC/passwd" = 0 ∧
    in_dtracker_whitelist TARGET_LINUX libc_env.ok "/etc/ssl/certs/ca.pem" = 1 := by
  have hf := check_file_patterns_linux libc_env.ok rfl rfl p
  have hd := check_dir_patterns_linux libc_env.ok rfl rfl rfl p
  refine ⟨?_, ?_, by decide, by decide, by decide, by decide⟩
  · rw [← hf, ← hd]
    unfold in_dtracker_whitelist
    by_cases h1 : check_file_patterns TARGET_LINUX libc_env.ok p = some 0 <;>
      by_cases h2 : check_dir_patterns TARGET_LINUX libc_env.ok p = some 0 <;>
      simp [h1, h2]
  · unfold in_dtracker_whitelist
    by_cases h1 : check_file_patterns TARGET_LINUX libc_env.ok p = some 0 <;>
      by_cases h2 : check_dir_patterns TARGET_LINUX libc_env.ok p = some 0 <;>
      simp [h1, h2]

/-- A string without `/` has no last slash. -/
theorem split_last_slash_none (a : List Char) (h : '/' ∉ a) : split_last_slash a = none := by
  induction a with
  | nil => rfl
  | cons c cs ih =>
    have hc : c ≠ '/' := fun e => h (e ▸ List.mem_cons_self _ _)
    have hcs : '/' ∉ cs := fun e => h (List.mem_cons_of_mem _ e)
    simp [split_last_slash, ih hcs, hc]

/-- The last slash of `b ++ "/" ++ a`, when `a` has no `/`, is the one in
the middle. -/
theorem split_last_slash_append (b a : List Char) (h : '/' ∉ a) :
    split_last_slash (b ++ '/' :: a) = some (b, a) := by
  induction b with
  | nil => simp [split_last_slash, split_last_slash_none a h]
  | cons c cs ih => simp [split_last_slash, ih]

/-- Text that does not end with `/` has no trailing slashes to strip. -/
theorem strip_slashes_id (l : List Char) (h : l.getLast? ≠ some '/') : strip_slashes l = l := by
  unfold strip_slashes
  rw [← List.head?_reverse] at h
  cases hr : l.reverse with
  | nil =>
    have : l = [] := by simpa using hr
    simp [this]
  | cons x xs =>
    rw [hr] at h
    have hx : x ≠ '/' := by simpa using h
    have : List.dropWhile (fun c => decide (c = '/')) (x :: xs) = x :: xs := by
      simp [List.dropWhile, hx]
    rw [this, ← hr, List.reverse_reverse]

/-- The dirname of `<dir>/<name>` is `<dir>` when `<dir>` is not empty and
has no trailing `/` and `<name>` is a non-empty file name. -/
theorem dirname_append (dir name : List Char) (hd : dir ≠ [])
    (hnt : dir.getLast? ≠ some '/') (hname : name ≠ []) (hns : '/' ∉ name) :
    dirname (dir ++ '/' :: name) = dir := by
  unfold dirname
  rw [split_last_slash_append dir name hns]
  simp [hname, strip_slashes_id dir hnt, hd]

/-- C10: under Linux, with memory available for the directory check, every
path `<dir>/<name>` is whitelisted when `<dir>` is one of `/proc`, `/lib`,
`/usr/lib`, `/etc`, `/usr/share` or lies beneath one of them, is written
without a trailing `/`, and `<name>` is a non-empty file name without `/`. -/
theorem whitelist_of_system_dir (env : libc_env) (hs : env.strdup_path = true)
    (hm : env.malloc_path = true) (hr : env.regcomp_path = true) (p : String)
    (sys dir name : List Char)
    (hsys : sys ∈ ["/proc".data, "/lib".data, "/usr/lib".data, "/etc".data, "/usr/share".data])
    (hdir : dir = sys ∨ sys ++ ['/'] <+: dir) (hnt : dir.getLast? ≠ some '/')
    (hname : name ≠ []) (hns : '/' ∉ name) (hp : c_str p = dir ++ '/' :: name) :
    in_dtracker_whitelist TARGET_LINUX env p = 1 := by
  have hpre : sys ++ ['/'] <+: dir ++ ['/'] := by
    rcases hdir with h | h
    · rw [h]
    · exact h.trans (List.prefix_append dir ['/'])
  have hd : dir ≠ [] := by
    intro e
    rw [e] at hpre
    have hlen := hpre.length_le
    simp at hlen
    subst hlen
    exact absurd hsys (by decide)
  have hdn : dirname (c_str p) ++ ['/'] = dir ++ ['/'] := by
    rw [hp, dirname_append dir name hd hnt hname hns]
  have hcheck : check_dir_patterns TARGET_LINUX env p = some 0 := by
    rw [check_dir_patterns_linux env hs hm hr p, hdn]
    simp only [List.mem_cons, List.mem_singleton, List.not_mem_nil, or_false] at hsys
    rcases hsys with h | h | h | h | h
    · left; rw [h] at hpre; exact hpre
    · right; left; rw [h] at hpre; exact hpre
    · right; right; left; rw [h] at hpre; exact hpre
    · right; right; right; left; rw [h] at hpre; exact hpre
    · right; right; right; right; rw [h] at hpre; exact hpre
  unfold in_dtracker_whitelist
  by_cases h1 : check_file_patterns TARGET_LINUX env p = some 0 <;> simp [h1, hcheck]

/-- Witness for C10: a file beneath `/usr/lib`. -/
theorem whitelist_of_system_dir_witness :
    "/usr/lib".data ∈
      ["/proc".data, "/lib".data, "/usr/lib".data, "/etc".data, "/usr/share".data] ∧
    c_str "/usr/lib/python3/os.py" = "/usr/lib/python3".data ++ '/' :: "os.py".data ∧
    in_dtracker_whitelist TARGET_LINUX libc_env.ok "/usr/lib/python3/os.py" = 1 :=
  ⟨by decide, by decide,
    whitelist_of_system_dir libc_env.ok rfl rfl rfl "/usr/lib/python3/os.py"
      "/usr/lib".data "/usr/lib/python3".data "os.py".data (by decide)
      (Or.inr ⟨"python3".data, by decide⟩) (by decide) (by decide) (by decide) (by decide)⟩

/-! ## Theorems: scenarios and record formats -/

/-- When neither access bit survives the mask `O_ACCMODE`, the `O_WRONLY` bit
is clear. -/
theorem land_wronly_of_accmode_zero (flags : Int)
    (h : Int.land flags O_ACCMODE = 0) : Int.land flags O_WRONLY = 0 := by
  unfold O_ACCMODE at h
  unfold O_WRONLY
  rcases flags with n | n
  · have h3 : Int.land (Int.ofNat n) 3 = ((n &&& 3 : Nat) : Int) := rfl
    have h1 : Int.land (Int.ofNat n) 1 = ((n &&& 1 : Nat) : Int) := rfl
    rw [h3] at h
    rw [h1]
    have e3 : n &&& 3 = n % 4 := Nat.and_pow_two_sub_one_eq_mod n 2
    have e1 : n &&& 1 = n % 2 := Nat.and_pow_two_sub_one_eq_mod n 1
    rw [e3] at h
    rw [e1]
    omega
  · have h3 : Int.land (Int.negSucc n) 3 = ((Nat.ldiff 3 n : Nat) : Int) := rfl
    have h1 : Int.land (Int.negSucc n) 1 = ((Nat.ldiff 1 n : Nat) : Int) := rfl
    rw [h3] at h
    rw [h1]
    have h2 : Nat.ldiff 3 n = 0 := by exact_mod_cast h
    have hb : (Nat.ldiff 3 n).testBit 0 = Nat.testBit 0 0 := by rw [h2]
    rw [Nat.testBit_ldiff] at hb
    have hz : Nat.ldiff 1 n = 0 := by
      apply Nat.eq_of_testBit_eq
      intro i
      rw [Nat.testBit_ldiff, Nat.zero_testBit]
      rcases i with _ | i
      · simp at hb ⊢
        exact hb
      · simp [Nat.testBit_one_eq_true_iff_self_eq_zero]
    rw [hz]; rfl

/-- C14: on the start-up table `get(5)` returns 1; with executable name
`app`, `PROVLOG::open(1, "/tmp/out.txt", flags, 1)` for any flags that have
the `O_WRONLY` bit writes exactly `o:ufd1:/tmp/out.txt`, `#g:created`,
`g:c:app:/tmp/out.txt`; `PROVLOG::close` on the id that a later `get(5)`
returns writes exactly `c:ufd1`; and `PROVLOG::close(N)` writes the single
line `c:ufd` followed by the decimal digits of `N`. -/
theorem scenario_open_close :
    (ufdmap.get 5).1 = 1 ∧
    (∀ flags : Int, Int.land flags O_WRONLY ≠ 0 →
      PROVLOG.open "app" (ufdmap.get 5).1 "/tmp/out.txt" flags 1 =
        ["o:ufd1:/tmp/out.txt", "#g:created", "g:c:app:/tmp/out.txt"]) ∧
    PROVLOG.close ((ufdmap.get 5).2.get 5).1 = ["c:ufd1"] ∧
    (∀ N : ufd_t, PROVLOG.close N = ["c:ufd" ++ String.mk (Nat.toDigits 10 N)]) := by
  refine ⟨by decide, ?_, by decide, fun N => rfl⟩
  intro flags hf
  have hw : Int.land flags (Int.lor O_WRONLY O_RDWR) ≠ 0 := by
    rw [lor_wronly_rdwr]
    exact fun h => hf (land_wronly_of_accmode_zero flags h)
  have h5 : (ufdmap.get 5).1 = 1 := by decide
  rw [open_shape, h5, if_neg hf, if_pos hw, if_pos (by decide)]
  decide

/-- Witness for C14: the flags `O_WRONLY|O_CREAT` (`65`). -/
theorem scenario_open_close_witness :
    Int.land 65 O_WRONLY ≠ 0 ∧
    PROVLOG.open "app" (ufdmap.get 5).1 "/tmp/out.txt" 65 1 =
      ["o:ufd1:/tmp/out.txt", "#g:created", "g:c:app:/tmp/out.txt"] :=
  ⟨by decide, scenario_open_close.2.1 65 (by decide)⟩

/-- C15: `PROVLOG::exec(exename, pid)` writes exactly one line: `x:`, the pid
in decimal, `:`, and the executable name as it is; for `child` and pid 42 the
line is `x:42:child`. -/
theorem exec_output (exename : String) (pid : Int) :
    PROVLOG.exec exename pid = ["x:" ++ Int.repr pid ++ ":" ++ exename] ∧
    (PROVLOG.exec exename pid).length = 1 ∧
    (∀ n : Nat, PROVLOG.exec exename (n : Int) =
      ["x:" ++ String.mk (Nat.toDigits 10 n) ++ ":" ++ exename]) ∧
    PROVLOG.exec "child" 42 = ["x:42:child"] := by
  refine ⟨rfl, rfl, fun n => rfl, by decide⟩

/-- C18: the records are the fixed tag followed by the executable name, `:`
and the path, with nothing escaped; so the pairs (`a:b`, `c`) and
(`a`, `b:c`) give the same used record `u:a:b:c` and the same generation
records `g:c:a:b:c`, `g:t:a:b:c`, `g:u:a:b:c`. -/
theorem record_fields_ambiguous :
    (∀ (exename : String) (ufd : ufd_t) (fdname : String) (flags created : Int),
      PROVLOG.open exename ufd fdname flags created =
        (("o:ufd" ++ toString ufd ++ ":" ++ fdname) ::
          (if Int.land flags O_WRONLY = 0 then ["u:" ++ exename ++ ":" ++ fdname] else [])) ++
        (if Int.land flags (Int.lor O_WRONLY O_RDWR) ≠ 0 then
          (if created ≠ 0 then ["#g:created", "g:c:" ++ exename ++ ":" ++ fdname]
           else if Int.land flags O_TRUNC ≠ 0 then
             ["#g:truncated", "g:t:" ++ exename ++ ":" ++ fdname]
           else ["#g:updated", "g:u:" ++ exename ++ ":" ++ fdname])
         else [])) ∧
    (("a:b", "c") : String × String) ≠ ("a", "b:c") ∧
    PROVLOG.open "a:b" 1 "c" 2 1 = ["o:ufd1:c", "u:a:b:c", "#g:created", "g:c:a:b:c"] ∧
    PROVLOG.open "a" 1 "b:c" 2 1 = ["o:ufd1:b:c", "u:a:b:c", "#g:created", "g:c:a:b:c"] ∧
    PROVLOG.open "a:b" 1 "c" 514 0 = ["o:ufd1:c", "u:a:b:c", "#g:truncated", "g:t:a:b:c"] ∧
    PROVLOG.open "a" 1 "b:c" 514 0 = ["o:ufd1:b:c", "u:a:b:c", "#g:truncated", "g:t:a:b:c"] ∧
    PROVLOG.open "a:b" 1 "c" 2 0 = ["o:ufd1:c", "u:a:b:c", "#g:updated", "g:u:a:b:c"] ∧
    PROVLOG.open "a" 1 "b:c" 2 0 = ["o:ufd1:b:c", "u:a:b:c", "#g:updated", "g:u:a:b:c"] := by
  refine ⟨fun exename ufd fdname flags created => ?_, by decide, by decide, by decide,
    by decide, by decide, by decide, by decide⟩
  rw [open_shape]
  rfl

/-- C20: the output of `PROVLOG::open` holds a generation record exactly
when `flags & (O_WRONLY|O_RDWR)` is non-zero; when it is zero the output is
the open record followed by the used record and nothing else, whatever
`created` and the `O_TRUNC` bit are. -/
theorem open_readonly_output (exename : String) (ufd : ufd_t) (fdname : String)
    (flags created : Int) :
    ((∃ l ∈ PROVLOG.open exename ufd fdname flags created, is_generation_record l = true) ↔
      Int.land flags (Int.lor O_WRONLY O_RDWR) ≠ 0) ∧
    ((∃ l ∈ PROVLOG.open exename ufd fdname flags created, is_comment l = true) ↔
      Int.land flags (Int.lor O_WRONLY O_RDWR) ≠ 0) ∧
    (Int.land flags (Int.lor O_WRONLY O_RDWR) = 0 →
      PROVLOG.open exename ufd fdname flags created =
        ["o:ufd" ++ toString ufd ++ ":" ++ fdname, "u:" ++ exename ++ ":" ++ fdname]) := by
  have hro : Int.land flags (Int.lor O_WRONLY O_RDWR) = 0 →
      PROVLOG.open exename ufd fdname flags created =
        ["o:ufd" ++ toString ufd ++ ":" ++ fdname, "u:" ++ exename ++ ":" ++ fdname] := by
    intro h0
    have h1 : Int.land flags O_WRONLY = 0 :=
      land_wronly_of_accmode_zero flags (by rw [← lor_wronly_rdwr]; exact h0)
    rw [open_shape]
    simp [h0, h1, open_line, used_line]
  refine ⟨?_, ?_, hro⟩
  · by_cases hw : Int.land flags (Int.lor O_WRONLY O_RDWR) = 0
    · rw [hro hw]
      simp [hw, is_generation_record, String.data_append]
    · have hc := (open_counts exename ufd fdname flags created hw).2
      have hpos : 0 < (PROVLOG.open exename ufd fdname flags created).countP
          is_generation_record := by omega
      rw [List.countP_pos_iff] at hpos
      simpa [hw] using hpos
  · by_cases hw : Int.land flags (Int.lor O_WRONLY O_RDWR) = 0
    · rw [hro hw]
      simp [hw, is_comment, String.data_append]
    · have hc := (open_counts exename ufd fdname flags created hw).1
      have hpos : 0 < (PROVLOG.open exename ufd fdname flags created).countP is_comment := by
        omega
      rw [List.countP_pos_iff] at hpos
      simpa [hw] using hpos

/-- Witness for C20: `O_RDONLY|O_CREAT|O_TRUNC` (`576`) with `created` set. -/
theorem open_readonly_output_witness :
    Int.land 576 (Int.lor O_WRONLY O_RDWR) = 0 ∧
    PROVLOG.open "app" 3 "/tmp/in.txt" 576 1 =
      ["o:ufd" ++ toString 3 ++ ":" ++ "/tmp/in.txt", "u:" ++ "app" ++ ":" ++ "/tmp/in.txt"] :=
  ⟨by decide, (open_readonly_output "app" 3 "/tmp/in.txt" 576 1).2.2 (by decide)⟩

/-! ## Theorems: absent patterns, failing compilation, failing resolution -/

/-- C12: a pattern set whose compilation fails contributes no match: the
status of its check is never 0; when both compilations fail
`in_dtracker_whitelist` returns 0 for every path; and a path that is
whitelisted although a compilation failed is whitelisted as well when that
compilation succeeds. -/
theorem whitelist_regcomp_failure (cfg : whitelist_re) (env : libc_env) (p : String) :
    ((∀ pattern, cfg.DTRACKER_FILE_WHITELIST_RE = some pattern →
        regcomp env.regcomp_file pattern = none) →
      check_file_patterns cfg env p ≠ some 0) ∧
    ((∀ pattern, cfg.DTRACKER_PATH_WHITELIST_RE = some pattern →
        regcomp env.regcomp_path pattern = none) →
      check_dir_patterns cfg env p ≠ some 0) ∧
    ((∀ pattern, cfg.DTRACKER_FILE_WHITELIST_RE = some pattern →
        regcomp env.regcomp_file pattern = none) →
      (∀ pattern, cfg.DTRACKER_PATH_WHITELIST_RE = some pattern →
        regcomp env.regcomp_path pattern = none) →
      in_dtracker_whitelist cfg env p = 0) ∧
    (env.regcomp_file = false → env.regcomp_path = false →
      in_dtracker_whitelist cfg env p = 0) ∧
    (env.regcomp_file = false → in_dtracker_whitelist cfg env p = 1 →
      in_dtracker_whitelist cfg { env with regcomp_file := true } p = 1) ∧
    (env.regcomp_path = false → in_dtracker_whitelist cfg env p = 1 →
      in_dtracker_whitelist cfg { env with regcomp_path := true } p = 1) := by
  have hfile : (∀ pattern, cfg.DTRACKER_FILE_WHITELIST_RE = some pattern →
      regcomp env.regcomp_file pattern = none) → check_file_patterns cfg env p ≠ some 0 := by
    intro h
    unfold check_file_patterns
    cases hc : cfg.DTRACKER_FILE_WHITELIST_RE with
    | none => simp
    | some pattern =>
      have := h pattern hc
      by_cases hs : env.strdup_file = true <;> simp [hs, this]
  have hdir : (∀ pattern, cfg.DTRACKER_PATH_WHITELIST_RE = some pattern →
      regcomp env.regcomp_path pattern = none) → check_dir_patterns cfg env p ≠ some 0 := by
    intro h
    unfold check_dir_patterns
    cases hc : cfg.DTRACKER_PATH_WHITELIST_RE with
    | none => simp
    | some pattern =>
      have := h pattern hc
      by_cases hs : env.strdup_path = true <;> by_cases hm : env.malloc_path = true <;>
        simp [hs, hm, this]
  have hboth : (∀ pattern, cfg.DTRACKER_FILE_WHITELIST_RE = some pattern →
        regcomp env.regcomp_file pattern = none) →
      (∀ pattern, cfg.DTRACKER_PATH_WHITELIST_RE = some pattern →
        regcomp env.regcomp_path pattern = none) →
      in_dtracker_whitelist cfg env p = 0 := by
    intro h1 h2
    simp [in_dtracker_whitelist, hfile h1, hdir h2]
  refine ⟨hfile, hdir, hboth, ?_, ?_, ?_⟩
  · intro h1 h2
    exact hboth (fun pattern _ => by simp [regcomp, h1]) (fun pattern _ => by simp [regcomp, h2])
  · intro h1 hres
    have hf := hfile (fun pattern _ => by simp [regcomp, h1])
    have hd : check_dir_patterns cfg env p = some 0 := by
      by_contra hd
      simp [in_dtracker_whitelist, hf, hd] at hres
    have hd2 : check_dir_patterns cfg { env with regcomp_file := true } p = some 0 := hd
    unfold in_dtracker_whitelist
    by_cases hx : check_file_patterns cfg { env with regcomp_file := true } p = some 0 <;>
      simp [hx, hd2]
  · intro h2 hres
    have hd := hdir (fun pattern _ => by simp [regcomp, h2])
    have hf : check_file_patterns cfg env p = some 0 := by
      by_contra hf
      simp [in_dtracker_whitelist, hf, hd] at hres
    have hf2 : check_file_patterns cfg { env with regcomp_path := true } p = some 0 := hf
    simp [in_dtracker_whitelist, hf2]

/-- Witness for C12: under Linux with both compilations failing a library in
a system directory is not whitelisted. -/
theorem whitelist_regcomp_failure_witness :
    (libc_env.mk true false true true false).regcomp_file = false ∧
    (libc_env.mk true false true true false).regcomp_path = false ∧
    in_dtracker_whitelist TARGET_LINUX (libc_env.mk true false true true false)
      "/usr/lib/libc.so.6" = 0 :=
  ⟨rfl, rfl,
    (whitelist_regcomp_failure TARGET_LINUX (libc_env.mk true false true true false)
      "/usr/lib/libc.so.6").2.2.2.1 rfl rfl⟩

/-- The Mac file pattern compiles to the single branch `\.dylib$`. -/
theorem regcomp_mac_file :
    regcomp true "\\.dylib$" = some [".dylib".data.map re_atom.chr ++ [re_atom.eol]] := by
  decide

/-- The Windows file pattern compiles to the single branch `\.dll$`. -/
theorem regcomp_windows_file :
    regcomp true "\\.dll$" = some [".dll".data.map re_atom.chr ++ [re_atom.eol]] := by
  decide

/-- C16: when the directory pattern is absent the directory check is not
entered, and `in_dtracker_whitelist` returns 1 exactly when the file check
matched; under the Mac and Windows configurations, with memory available,
that is exactly when the basename ends with `.dylib`, respectively `.dll`.
When the file pattern is absent the file check is not entered and the result
is 1 exactly when the directory check matched. -/
theorem whitelist_absent_pattern (cfg : whitelist_re) (env : libc_env) (p : String) :
    (cfg.DTRACKER_PATH_WHITELIST_RE = none →
      check_dir_patterns cfg env p = none ∧
      (in_dtracker_whitelist cfg env p = 1 ↔ check_file_patterns cfg env p = some 0) ∧
      (∀ pattern re, cfg.DTRACKER_FILE_WHITELIST_RE = some pattern →
        env.strdup_file = true → regcomp env.regcomp_file pattern = some re →
        (in_dtracker_whitelist cfg env p = 1 ↔ regexec re (basename (c_str p)) = 0))) ∧
    (in_dtracker_whitelist TARGET_MAC libc_env.ok p = 1 ↔
      ".dylib".data <:+ basename (c_str p)) ∧
    (in_dtracker_whitelist TARGET_WINDOWS libc_env.ok p = 1 ↔
      ".dll".data <:+ basename (c_str p)) ∧
    (cfg.DTRACKER_FILE_WHITELIST_RE = none →
      check_file_patterns cfg env p = none ∧
      (in_dtracker_whitelist cfg env p = 1 ↔ check_dir_patterns cfg env p = some 0)) := by
  have hnodir : ∀ (c : whitelist_re) (e : libc_env), c.DTRACKER_PATH_WHITELIST_RE = none →
      check_dir_patterns c e p = none ∧
      (in_dtracker_whitelist c e p = 1 ↔ check_file_patterns c e p = some 0) := by
    intro c e h
    have hd : check_dir_patterns c e p = none := by simp [check_dir_patterns, h]
    refine ⟨hd, ?_⟩
    unfold in_dtracker_whitelist
    by_cases hf : check_file_patterns c e p = some 0 <;> simp [hf, hd]
  have hfile : ∀ (c : whitelist_re) (e : libc_env) pattern re,
      c.DTRACKER_FILE_WHITELIST_RE = some pattern → e.strdup_file = true →
      regcomp e.regcomp_file pattern = some re →
      (check_file_patterns c e p = some 0 ↔ regexec re (basename (c_str p)) = 0) := by
    intro c e pattern re hc hs hr
    simp only [check_file_patterns, hc, hs, if_true, hr, Option.some.injEq]
  refine ⟨?_, ?_, ?_, ?_⟩
  · intro h
    refine ⟨(hnodir cfg env h).1, (hnodir cfg env h).2, ?_⟩
    intro pattern re hc hs hr
    rw [(hnodir cfg env h).2, hfile cfg env pattern re hc hs hr]
  · rw [(hnodir TARGET_MAC libc_env.ok rfl).2,
      hfile TARGET_MAC libc_env.ok _ _ rfl rfl regcomp_mac_file, regexec_eq_zero]
    exact regexec_from_chars_eol ".dylib".data true _
  · rw [(hnodir TARGET_WINDOWS libc_env.ok rfl).2,
      hfile TARGET_WINDOWS libc_env.ok _ _ rfl rfl regcomp_windows_file, regexec_eq_zero]
    exact regexec_from_chars_eol ".dll".data true _
  · intro h
    have hf : check_file_patterns cfg env p = none := by simp [check_file_patterns, h]
    refine ⟨hf, ?_⟩
    unfold in_dtracker_whitelist
    by_cases hd : check_dir_patterns cfg env p = some 0 <;> simp [hf, hd]

/-- Witness for C16: under the Mac configuration a file in `/usr/lib` is
whitelisted exactly when the file check matched, and here it did not. -/
theorem whitelist_absent_pattern_witness :
    TARGET_MAC.DTRACKER_PATH_WHITELIST_RE = none ∧
    check_dir_patterns TARGET_MAC libc_env.ok "/usr/lib/charset.alias" = none ∧
    (in_dtracker_whitelist TARGET_MAC libc_env.ok "/usr/lib/charset.alias" = 1 ↔
      check_file_patterns TARGET_MAC libc_env.ok "/usr/lib/charset.alias" = some 0) :=
  ⟨rfl, ((whitelist_absent_pattern TARGET_MAC libc_env.ok "/usr/lib/charset.alias").1 rfl).1,
    ((whitelist_absent_pattern TARGET_MAC libc_env.ok "/usr/lib/charset.alias").1 rfl).2.1⟩

/-- C13, the code at a failing resolution: when `realpath` yields no result,
`path_resolve` returns no value to its caller; the `return NULL;` it runs has
no defined behaviour. -/
theorem path_resolve_failure (realpath : List Char → Option (List Char)) (path : String)
    (h : realpath (c_str path) = none) :
    path_resolve realpath path = Outcome.undefined ∧
    ∀ r : String, path_resolve realpath path ≠ Outcome.returned r := by
  have hu : path_resolve realpath path = Outcome.undefined := by
    simp [path_resolve, h]
  refine ⟨hu, fun r => ?_⟩
  rw [hu]
  exact fun e => Outcome.noConfusion e

/-- Witness for C13: a path that does not resolve. -/
theorem path_resolve_failure_witness :
    (fun _ : List Char => (none : Option (List Char))) (c_str "/nonexistent") = none ∧
    path_resolve (fun _ => none) "/nonexistent" = Outcome.undefined :=
  ⟨rfl, (path_resolve_failure (fun _ => none) "/nonexistent" rfl).1⟩

/-- The method `del` keeps the table property. -/
theorem table_ok_del (m : ufdmap_t) (fd : Fin MAX_OPEN_FILES) (h : table_ok m) :
    table_ok (m.del fd) := by
  obtain ⟨hlt, hinj⟩ := h
  constructor
  · intro i hi
    by_cases hfd : i = fd
    · subst hfd; exact absurd (del_map_same m i) hi
    · rw [del_map_other m fd i hfd] at hi ⊢
      exact hlt i hi
  · intro i j hij hi
    by_cases hfd : i = fd
    · subst hfd; exact absurd (del_map_same m i) hi
    · rw [del_map_other m fd i hfd] at hi ⊢
      by_cases hjd : j = fd
      · subst hjd; rw [del_map_same]; exact hi
      · rw [del_map_other m fd j hjd]; exact hinj i j hij hi

/-- The method `get` keeps the table property as long as the increment of
`next` does not wrap. -/
theorem table_ok_get (m : ufdmap_t) (fd : Fin MAX_OPEN_FILES) (h : table_ok m)
    (hn : m.next + 1 < UFD_MOD) : table_ok (m.get fd).2 := by
  by_cases h0 : m.map fd = 0
  · obtain ⟨hlt, hinj⟩ := h
    have hnext : (m.get fd).2.next = m.next + 1 := by
      rw [get_of_unassigned m fd h0]
      exact Nat.mod_eq_of_lt hn
    have hslot : (m.get fd).2.map fd = m.next := by
      rw [get_of_unassigned m fd h0]; simp
    constructor
    · intro i hi
      rw [hnext]
      by_cases hfd : i = fd
      · subst hfd; rw [hslot]; omega
      · rw [get_map_other m fd i hfd] at hi ⊢
        have := hlt i hi
        omega
    · intro i j hij hi
      by_cases hfd : i = fd
      · subst hfd
        have hjd : j ≠ i := fun e => hij e.symm
        rw [hslot] at hi ⊢
        rw [get_map_other m i j hjd]
        by_cases hj0 : m.map j = 0
        · rw [hj0]; exact hi
        · have := hlt j hj0
          omega
      · rw [get_map_other m fd i hfd] at hi ⊢
        by_cases hjd : j = fd
        · subst hjd
          rw [hslot]
          have := hlt i hi
          omega
        · rw [get_map_other m fd j hjd]; exact hinj i j hij hi
  · rw [get_of_assigned m fd h0]; exact h

/-- C19: every table reached from start-up by `get` and `del` calls with
fewer than `2 ^ 32 - 1` fresh assignments has the table property: every
non-zero slot is strictly below `next`, and no two distinct descriptor
numbers hold the same non-zero virtual id; there `next` is one more than the
number of fresh assignments.  The method `del` keeps the property, and so
does `get` as long as the increment of `next` does not wrap
(`next + 1 < 2 ^ 32`, that is, as long as a fresh assignment by this call
keeps their number below `2 ^ 32 - 1`). -/
theorem table_invariant (ops : List ufd_op) :
    (ufdmap.fresh ops < UFD_MOD - 1 →
      table_ok (ufdmap.run ops) ∧ (ufdmap.run ops).next = 1 + ufdmap.fresh ops) ∧
    (∀ (m : ufdmap_t) (fd : Fin MAX_OPEN_FILES), table_ok m → table_ok (m.del fd)) ∧
    (∀ (m : ufdmap_t) (fd : Fin MAX_OPEN_FILES), table_ok m → m.next + 1 < UFD_MOD →
      table_ok (m.get fd).2) := by
  refine ⟨?_, table_ok_del, table_ok_get⟩
  intro hb
  obtain ⟨_, _, hn, hlt, hinj⟩ := ufd_inv_run ops ufdmap 1 ufd_inv_init (by omega)
  rw [Nat.mod_eq_of_lt (by omega)] at hn
  exact ⟨⟨fun i _ => by rw [hn]; exact hlt i, fun i j hij hne heq => hij (hinj i j heq hne)⟩,
    hn⟩

/-- Witness for C19: three descriptors, one released and assigned again. -/
theorem table_invariant_witness :
    ufdmap.fresh [ufd_op.get 3, ufd_op.get 4, ufd_op.del 3, ufd_op.get 3] < UFD_MOD - 1 ∧
    table_ok (ufdmap.run [ufd_op.get 3, ufd_op.get 4, ufd_op.del 3, ufd_op.get 3]) :=
  ⟨by decide,
    ((table_invariant [ufd_op.get 3, ufd_op.get 4, ufd_op.del 3, ufd_op.get 3]).1
      (by decide)).1⟩

/-! ## Theorems: comment lines -/

/-- A stretch of text without line feed that is closed by a line feed is one
line of the stream. -/
theorem stream_lines_line (l rest : List Char) (h : '\n' ∉ l) :
    stream_lines (l ++ '\n' :: rest) = l :: stream_lines rest := by
  induction l with
  | nil => simp [stream_lines]
  | cons c cs ih =>
    have hc : c ≠ '\n' := fun e => h (e ▸ List.mem_cons_self _ _)
    have hcs : '\n' ∉ cs := fun e => h (List.mem_cons_of_mem _ e)
    simp [stream_lines, hc, ih hcs]

/-- When no statement wrote a line feed inside its text, the lines of the log
are the texts of the statements. -/
theorem log_lines_eq (written : List String) (h : ∀ r ∈ written, '\n' ∉ r.data) :
    log_lines written = written.map String.data := by
  induction written with
  | nil => rfl
  | cons r rs ih =>
    have hr := h r (List.mem_cons_self _ _)
    have hrs : ∀ x ∈ rs, '\n' ∉ x.data := fun x hx => h x (List.mem_cons_of_mem _ hx)
    have := ih hrs
    unfold log_lines at this ⊢
    simp only [stream_bytes, List.map_cons]
    rw [stream_lines_line _ _ hr, this]

/-- No decimal digit character is a line feed. -/
theorem digitChar_ne_line_feed (d : Nat) (hd : d < 10) : Nat.digitChar d ≠ '\n' := by
  interval_cases d <;> decide

/-- The digits of a number hold no line feed. -/
theorem toDigitsCore_no_line_feed (fuel n : Nat) (ds : List Char) (h : '\n' ∉ ds) :
    '\n' ∉ Nat.toDigitsCore 10 fuel n ds := by
  induction fuel generalizing n ds with
  | zero => simpa [Nat.toDigitsCore] using h
  | succ fuel ih =>
    have hd : '\n' ∉ Nat.digitChar (n % 10) :: ds := by
      intro hm
      rcases List.mem_cons.mp hm with e | e
      · exact digitChar_ne_line_feed _ (Nat.mod_lt n (by decide)) e.symm
      · exact h e
    unfold Nat.toDigitsCore
    by_cases hz : n / 10 = 0
    · simpa [hz] using hd
    · simp only [hz, if_false]
      exact ih (n / 10) _ hd

/-- The decimal text of a virtual id holds no line feed. -/
theorem toString_no_line_feed (n : Nat) : '\n' ∉ (toString n).data := by
  show '\n' ∉ Nat.toDigitsCore 10 (n + 1) n []
  exact toDigitsCore_no_line_feed (n + 1) n [] (by simp)

/-- When the executable name and the path hold no line feed, no statement of
`PROVLOG::open` writes one inside its text. -/
theorem open_no_line_feed (exename : String) (ufd : ufd_t) (fdname : String)
    (flags created : Int) (he : '\n' ∉ exename.data) (hf : '\n' ∉ fdname.data) :
    ∀ r ∈ PROVLOG.open exename ufd fdname flags created, '\n' ∉ r.data := by
  have hu := toString_no_line_feed ufd
  rw [open_shape]
  by_cases h1 : Int.land flags O_WRONLY = 0 <;>
    by_cases h2 : Int.land flags (Int.lor O_WRONLY O_RDWR) = 0 <;>
    by_cases h3 : created = 0 <;>
    by_cases h4 : Int.land flags O_TRUNC = 0 <;>
    simp [h1, h2, h3, h4, open_line, used_line, String.data_append, he, hf, hu]

/-- Without line feeds in the fields, deleting the comment lines of the
output of `PROVLOG::open` and putting them back from the generation records
gives the lines of the output again. -/
theorem restore_strip_open (exename : String) (ufd : ufd_t) (fdname : String)
    (flags created : Int) (he : '\n' ∉ exename.data) (hf : '\n' ∉ fdname.data) :
    restore_comments (strip_comments (PROVLOG.open exename ufd fdname flags created)) =
      log_lines (PROVLOG.open exename ufd fdname flags created) := by
  unfold strip_comments
  rw [log_lines_eq _ (open_no_line_feed exename ufd fdname flags created he hf), open_shape]
  by_cases h1 : Int.land flags O_WRONLY = 0 <;>
    by_cases h2 : Int.land flags (Int.lor O_WRONLY O_RDWR) = 0 <;>
    by_cases h3 : created = 0 <;>
    by_cases h4 : Int.land flags O_TRUNC = 0 <;>
    simp [h1, h2, h3, h4, restore_comments, comment_of, line_is_comment,
      open_line, used_line, String.data_append]

/-- In a log with paired comments, the line after a comment line is the
record the comment announces. -/
theorem comments_paired_next (pre : List (List Char)) (l : List (List Char))
    (h : comments_paired l = true) (c : List Char) (post : List (List Char))
    (hs : l = pre ++ c :: post) (hc : line_is_comment c = true) :
    ∃ g rest, post = g :: rest ∧ comment_of g = [c] := by
  induction pre generalizing l with
  | nil =>
    cases post with
    | nil =>
      rw [hs] at h
      simp [comments_paired, hc] at h
    | cons g rest =>
      rw [hs] at h
      simp only [List.nil_append, comments_paired, hc, if_true, Bool.and_eq_true,
        beq_iff_eq] at h
      exact ⟨g, rest, rfl, h.1⟩
  | cons x pre ih =>
    cases hrest : pre ++ c :: post with
    | nil => simp at hrest
    | cons y ys =>
      have hl : l = x :: y :: ys := by rw [hs, List.cons_append, hrest]
      rw [hl] at h
      have h2 : comments_paired (y :: ys) = true := by
        by_cases hx : line_is_comment x = true
        · simp only [comments_paired, hx, if_true, Bool.and_eq_true] at h
          exact h.2
        · simp only [comments_paired, hx] at h
          exact h
      exact ih (y :: ys) h2 hrest.symm

/-- A comment line announces the record whose category letter it names. -/
theorem comment_of_eq (g c : List Char) (h : comment_of g = [c]) :
    (c = "#g:created".data ∧ g.take 4 = "g:c:".data) ∨
      (c = "#g:truncated".data ∧ g.take 4 = "g:t:".data) ∨
      (c = "#g:updated".data ∧ g.take 4 = "g:u:".data) := by
  unfold comment_of at h
  split_ifs at h with h1 h2 h3
  · left; exact ⟨by simpa using h.symm, h1⟩
  · right; left; exact ⟨by simpa using h.symm, h2⟩
  · right; right; exact ⟨by simpa using h.symm, h3⟩

/-- Without line feeds in the fields, the comment lines in the output of
`PROVLOG::open` are paired with their generation records. -/
theorem open_comments_paired (exename : String) (ufd : ufd_t) (fdname : String)
    (flags created : Int) (he : '\n' ∉ exename.data) (hf : '\n' ∉ fdname.data) :
    comments_paired (log_lines (PROVLOG.open exename ufd fdname flags created)) = true := by
  rw [log_lines_eq _ (open_no_line_feed exename ufd fdname flags created he hf), open_shape]
  by_cases h1 : Int.land flags O_WRONLY = 0 <;>
    by_cases h2 : Int.land flags (Int.lor O_WRONLY O_RDWR) = 0 <;>
    by_cases h3 : created = 0 <;>
    by_cases h4 : Int.land flags O_TRUNC = 0 <;>
    simp [h1, h2, h3, h4, comments_paired, comment_of, line_is_comment,
      open_line, used_line, String.data_append]

/-- C17 fails as stated: a path is written as it is, line feeds included.
The opens of `/tmp/p<LF>#x` and of `/tmp/p<LF>#y` (flags 0) write different
text, yet after deleting every line that starts with `#` the same lines are
left; and the open of `/tmp/p<LF>#g:created` puts two lines `#g:created`
into the log, one followed by a used record and one by nothing. -/
theorem comments_line_feed_counterexample :
    strip_comments (PROVLOG.open "app" 1 "/tmp/p\n#x" 0 0) =
      strip_comments (PROVLOG.open "app" 1 "/tmp/p\n#y" 0 0) ∧
    stream_bytes (PROVLOG.open "app" 1 "/tmp/p\n#x" 0 0) ≠
      stream_bytes (PROVLOG.open "app" 1 "/tmp/p\n#y" 0 0) ∧
    PROVLOG.open "app" 1 "/tmp/p\n#x" 0 0 ≠ PROVLOG.open "app" 1 "/tmp/p\n#y" 0 0 ∧
    log_lines (PROVLOG.open "app" 1 "/tmp/p\n#g:created" 0 0) =
      ["o:ufd1:/tmp/p".data, "#g:created".data, "u:app:/tmp/p".data, "#g:created".data] ∧
    comments_paired (log_lines (PROVLOG.open "app" 1 "/tmp/p\n#g:created" 0 0)) = false := by
  refine ⟨by decide, by decide, by decide, by decide, by decide⟩

/-- C17 (amended): for calls of `PROVLOG::open` whose executable name and
path hold no line feed: if the logs of two calls are equal once every line
that starts with `#` is deleted, the complete outputs are equal; and in the
log of a call each line that starts with `#` is directly followed by a line
that starts with `g:c:`, `g:t:` or `g:u:`, matching `#g:created`,
`#g:truncated` or `#g:updated`. -/
theorem comments_carry_no_information :
    (∀ (exename1 : String) (ufd1 : ufd_t) (fdname1 : String) (flags1 created1 : Int)
      (exename2 : String) (ufd2 : ufd_t) (fdname2 : String) (flags2 created2 : Int),
      '\n' ∉ exename1.data → '\n' ∉ fdname1.data →
      '\n' ∉ exename2.data → '\n' ∉ fdname2.data →
      strip_comments (PROVLOG.open exename1 ufd1 fdname1 flags1 created1) =
        strip_comments (PROVLOG.open exename2 ufd2 fdname2 flags2 created2) →
      PROVLOG.open exename1 ufd1 fdname1 flags1 created1 =
        PROVLOG.open exename2 ufd2 fdname2 flags2 created2) ∧
    (∀ (exename : String) (ufd : ufd_t) (fdname : String) (flags created : Int)
      (pre post : List (List Char)) (c : List Char),
      '\n' ∉ exename.data → '\n' ∉ fdname.data →
      log_lines (PROVLOG.open exename ufd fdname flags created) = pre ++ c :: post →
      line_is_comment c = true →
      ∃ g rest, post = g :: rest ∧
        ((c = "#g:created".data ∧ g.take 4 = "g:c:".data) ∨
          (c = "#g:truncated".data ∧ g.take 4 = "g:t:".data) ∨
          (c = "#g:updated".data ∧ g.take 4 = "g:u:".data))) := by
  constructor
  · intro e1 u1 f1 fl1 c1 e2 u2 f2 fl2 c2 he1 hf1 he2 hf2 h
    have hl : log_lines (PROVLOG.open e1 u1 f1 fl1 c1) =
        log_lines (PROVLOG.open e2 u2 f2 fl2 c2) := by
      rw [← restore_strip_open e1 u1 f1 fl1 c1 he1 hf1, h,
        restore_strip_open e2 u2 f2 fl2 c2 he2 hf2]
    rw [log_lines_eq _ (open_no_line_feed e1 u1 f1 fl1 c1 he1 hf1),
      log_lines_eq _ (open_no_line_feed e2 u2 f2 fl2 c2 he2 hf2)] at hl
    have hinj : Function.Injective String.data := fun a b hab => String.ext hab
    exact List.map_injective_iff.mpr hinj hl
  · intro e u f fl cr pre post c he hf hs hc
    obtain ⟨g, rest, hp, hg⟩ :=
      comments_paired_next pre _ (open_comments_paired e u f fl cr he hf) c post hs hc
    exact ⟨g, rest, hp, comment_of_eq g c hg⟩

/-- Witness for C17 (amended): the comment line of a created open. -/
theorem comments_carry_no_information_witness :
    '\n' ∉ "app".data ∧ '\n' ∉ "/tmp/out.txt".data ∧
    log_lines (PROVLOG.open "app" 1 "/tmp/out.txt" 1 1) =
      ["o:ufd1:/tmp/out.txt".data] ++ "#g:created".data :: ["g:c:app:/tmp/out.txt".data] ∧
    line_is_comment "#g:created".data = true ∧
    ∃ g rest, ["g:c:app:/tmp/out.txt".data] = g :: rest ∧
      (("#g:created".data = "#g:created".data ∧ g.take 4 = "g:c:".data) ∨
        ("#g:created".data = "#g:truncated".data ∧ g.take 4 = "g:t:".data) ∨
        ("#g:created".data = "#g:updated".data ∧ g.take 4 = "g:u:".data)) :=
  ⟨by decide, by decide, by decide, by decide,
    comments_carry_no_information.2 "app" 1 "/tmp/out.txt" 1 1
      ["o:ufd1:/tmp/out.txt".data] ["g:c:app:/tmp/out.txt".data] "#g:created".data
      (by decide) (by decide) (by decide) (by decide)⟩

/-! ## Theorems: a trailing separator -/

/-- When `split_last_slash` finds nothing, the text has no `/`. -/
theorem split_last_slash_eq_none (l : List Char) (h : split_last_slash l = none) :
    '/' ∉ l := by
  induction l with
  | nil => simp
  | cons c cs ih =>
    unfold split_last_slash at h
    cases hcs : split_last_slash cs with
    | some r => rw [hcs] at h; simp at h
    | none =>
      rw [hcs] at h
      by_cases hc : c = '/'
      · simp [hc] at h
      · intro hmem
        rcases List.mem_cons.mp hmem with e | e
        · exact hc e.symm
        · exact ih hcs e

/-- What `split_last_slash` returns: the text splits at a `/`, and no `/`
comes after it. -/
theorem split_last_slash_some (l b a : List Char) (h : split_last_slash l = some (b, a)) :
    l = b ++ '/' :: a ∧ '/' ∉ a := by
  induction l generalizing b a with
  | nil => simp [split_last_slash] at h
  | cons c cs ih =>
    unfold split_last_slash at h
    cases hcs : split_last_slash cs with
    | some r =>
      obtain ⟨b2, a2⟩ := r
      rw [hcs] at h
      simp only [Option.some.injEq, Prod.mk.injEq] at h
      obtain ⟨hb, ha⟩ := h
      have := ih b2 a2 hcs
      subst hb; subst ha
      exact ⟨by rw [this.1]; simp, this.2⟩
    | none =>
      rw [hcs] at h
      by_cases hc : c = '/'
      · simp only [hc, if_true, Option.some.injEq, Prod.mk.injEq] at h
        obtain ⟨hb, ha⟩ := h
        subst hb; subst ha
        exact ⟨by rw [hc]; rfl, split_last_slash_eq_none cs hcs⟩
      · simp [hc] at h

/-- A trailing `/` is among the slashes that `strip_slashes` removes. -/
theorem strip_slashes_append_slash (l : List Char) :
    strip_slashes (l ++ ['/']) = strip_slashes l := by
  simp [strip_slashes]

/-- Text in front of a non-empty name without `/` does not end with `/`. -/
theorem getLast_append_name (b a : List Char) (ha : a ≠ []) (hs : '/' ∉ a) :
    (b ++ '/' :: a).getLast? ≠ some '/' := by
  intro h
  have : (b ++ '/' :: a) = (b ++ ['/']) ++ a := by simp
  rw [this, List.getLast?_append_of_ne_nil _ ha] at h
  exact hs (List.mem_of_getLast?_eq_some h)

/-- Non-empty text without `/` does not end with `/`. -/
theorem getLast_no_slash (l : List Char) (hs : '/' ∉ l) : l.getLast? ≠ some '/' :=
  fun h => hs (List.mem_of_getLast?_eq_some h)

/-- The basename does not change when a `/` is appended to a non-empty
path. -/
theorem basename_append_slash (l : List Char) (hl : l ≠ []) :
    basename (l ++ ['/']) = basename l := by
  have hsplit : split_last_slash (l ++ ['/']) = some (l, []) :=
    split_last_slash_append l [] (by simp)
  have hne : l ++ ['/'] ≠ [] := by simp
  unfold basename
  rw [if_neg hne, if_neg hl, hsplit]
  simp only [if_true]
  cases hs : split_last_slash l with
  | none =>
    have hno := split_last_slash_eq_none l hs
    have hid := strip_slashes_id l (getLast_no_slash l hno)
    simp [hid, hl, hs]
  | some r =>
    obtain ⟨b, a⟩ := r
    obtain ⟨hla, hna⟩ := split_last_slash_some l b a hs
    by_cases ha : a = []
    · subst ha
      have hst : strip_slashes l = strip_slashes b := by
        rw [hla]; exact strip_slashes_append_slash b
      simp [hst]
    · have hid : strip_slashes l = l := by
        rw [hla]; exact strip_slashes_id _ (getLast_append_name b a ha hna)
      simp [hid, hl, hs, ha]

/-- Text that `strip_slashes` empties and that has one character is `/`. -/
theorem strip_slashes_single (b : List Char) (hs : strip_slashes b = [])
    (hlen : b.length = 1) : b = ['/'] := by
  match b, hlen with
  | [x], _ =>
    by_cases hx : x = '/'
    · rw [hx]
    · simp [strip_slashes, hx] at hs

/-- The dirname does not change when a `/` is appended to a non-empty path
other than `/` and `//`. -/
theorem dirname_append_slash (l : List Char) (hl : l ≠ []) (h1 : l ≠ ['/'])
    (h2 : l ≠ ['/', '/']) : dirname (l ++ ['/']) = dirname l := by
  have hsplit : split_last_slash (l ++ ['/']) = some (l, []) :=
    split_last_slash_append l [] (by simp)
  have hstrip := strip_slashes_append_slash l
  have htake1 : (l ++ ['/']).take 1 = l.take 1 := by
    cases l with
    | nil => exact absurd rfl hl
    | cons x xs => simp
  cases hs : split_last_slash l with
  | none =>
    have hno := split_last_slash_eq_none l hs
    have hid := strip_slashes_id l (getLast_no_slash l hno)
    unfold dirname
    rw [hsplit, hs]
    simp [hl, hid, hs]
  | some r =>
    obtain ⟨b, a⟩ := r
    obtain ⟨hla, hna⟩ := split_last_slash_some l b a hs
    by_cases ha : a = []
    · subst ha
      have hst : strip_slashes l = strip_slashes b := by
        rw [hla]; exact strip_slashes_append_slash b
      by_cases hS : strip_slashes b = []
      · -- the path is made of slashes only
        have hb1 : b.length ≠ 0 := by
          intro h0
          have : b = [] := List.length_eq_zero.mp h0
          exact h1 (by rw [hla, this]; rfl)
        have hb2 : b.length ≠ 1 := by
          intro h0
          have := strip_slashes_single b hS h0
          exact h2 (by rw [hla, this]; rfl)
        have hllen : l.length ≠ 1 := by
          rw [hla, List.length_append, List.length_singleton]; omega
        unfold dirname
        rw [hsplit, hs]
        simp [hl, hst, hS, hb2, hllen, htake1]
      · have hbne : b ≠ [] := by
          intro e; rw [e] at hS; exact hS rfl
        have htake2 : (l ++ ['/']).take 2 = l.take 2 := by
          rw [hla]
          cases b with
          | nil => exact absurd rfl hbne
          | cons x xs => cases xs <;> simp
        unfold dirname
        rw [hsplit, hs]
        simp [hl, hst, hS, hbne, htake1, htake2]
    · have hid : strip_slashes l = l := by
        rw [hla]; exact strip_slashes_id _ (getLast_append_name b a ha hna)
      have htake2 : b.length = 1 → (l ++ ['/']).take 2 = l.take 2 := by
        intro hb
        rw [hla]
        match b, hb with
        | [x], _ => simp
      unfold dirname
      rw [hsplit, hs]
      simp only [hl, hid, hs, ha, ne_eq, not_false_eq_true, and_true, and_false, if_true,
        if_false, Option.map_some', htake1]
      by_cases hb : b.length = 1
      · simp [hb, htake2 hb]
      · simp [hb]

/-- Reading up to the first NUL after appending one character `x` that is
not NUL: either the NUL comes earlier and nothing changes, or the text has
no NUL and `x` is read as well. -/
theorem takeWhile_append_single (P : Char → Bool) (a : List Char) (x : Char) (hx : P x = true) :
    (a ++ [x]).takeWhile P = a.takeWhile P ∨
      ((a ++ [x]).takeWhile P = a.takeWhile P ++ [x] ∧ a.takeWhile P = a) := by
  induction a with
  | nil => right; simp [hx]
  | cons c cs ih =>
    by_cases hc : P c = true
    · rcases ih with h | ⟨h1, h2⟩
      · left; simp [List.takeWhile_cons, hc, h]
      · right; simp [List.takeWhile_cons, hc, h1, h2]
    · left; simp [List.takeWhile_cons, hc]

/-- The C string of `p` followed by `/`. -/
theorem c_str_append_slash (p : String) :
    c_str (p ++ "/") = c_str p ∨
      (c_str (p ++ "/") = c_str p ++ ['/'] ∧ c_str p = p.data) := by
  unfold c_str
  rw [String.data_append]
  exact takeWhile_append_single _ p.data '/' (by decide)

/-- The file check reads the path through its basename only. -/
theorem check_file_congr (cfg : whitelist_re) (env : libc_env) (p q : String)
    (hb : basename (c_str p) = basename (c_str q)) :
    check_file_patterns cfg env p = check_file_patterns cfg env q := by
  simp only [check_file_patterns, hb]

/-- The directory check reads the path through its dirname only. -/
theorem check_dir_congr (cfg : whitelist_re) (env : libc_env) (p q : String)
    (hd : dirname (c_str p) = dirname (c_str q)) :
    check_dir_patterns cfg env p = check_dir_patterns cfg env q := by
  simp only [check_dir_patterns, hd]

/-- Under Linux a matching directory check means that the dirname followed
by `/` starts with a system directory. -/
theorem check_dir_linux_some (env : libc_env) (p : String)
    (h : check_dir_patterns TARGET_LINUX env p = some 0) :
    "/proc/".data <+: dirname (c_str p) ++ ['/'] ∨
      "/lib/".data <+: dirname (c_str p) ++ ['/'] ∨
      "/usr/lib/".data <+: dirname (c_str p) ++ ['/'] ∨
      "/etc/".data <+: dirname (c_str p) ++ ['/'] ∨
      "/usr/share/".data <+: dirname (c_str p) ++ ['/'] := by
  by_cases hs : env.strdup_path = true
  · by_cases hm : env.malloc_path = true
    · by_cases hr : env.regcomp_path = true
      · exact (check_dir_patterns_linux env hs hm hr p).mp h
      · simp [check_dir_patterns, TARGET_LINUX, hs, hm, hr, regcomp] at h
    · simp [check_dir_patterns, TARGET_LINUX, hs, hm] at h
  · simp [check_dir_patterns, TARGET_LINUX, hs] at h

/-- Under each configuration of the source the directory check does not
match a path whose dirname is `/` or `//`. -/
theorem check_dir_root (cfg : whitelist_re)
    (hcfg : cfg = TARGET_LINUX ∨ cfg = TARGET_MAC ∨ cfg = TARGET_WINDOWS) (env : libc_env)
    (p : String) (hd : dirname (c_str p) = ['/'] ∨ dirname (c_str p) = ['/', '/']) :
    check_dir_patterns cfg env p ≠ some 0 := by
  rcases hcfg with h | h | h
  · subst h
    intro hc
    have := check_dir_linux_some env p hc
    rcases hd with hd | hd <;> rw [hd] at this <;> revert this <;> decide
  · subst h; simp [check_dir_patterns, TARGET_MAC]
  · subst h; simp [check_dir_patterns, TARGET_WINDOWS]

/-- C11: under each configuration of the source and whatever memory the
calls get, for every non-empty path `p` the whitelist decision for `p`
followed by `/` is the decision for `p`. -/
theorem whitelist_trailing_slash (cfg : whitelist_re)
    (hcfg : cfg = TARGET_LINUX ∨ cfg = TARGET_MAC ∨ cfg = TARGET_WINDOWS) (env : libc_env)
    (p : String) (hp : p ≠ "") :
    in_dtracker_whitelist cfg env (p ++ "/") = in_dtracker_whitelist cfg env p := by
  rcases c_str_append_slash p with hc | ⟨hc, hdata⟩
  · simp only [in_dtracker_whitelist, check_file_patterns, check_dir_patterns, hc]
  · have hl : c_str p ≠ [] := by
      rw [hdata]
      intro e
      exact hp (String.ext e)
    have hb : basename (c_str (p ++ "/")) = basename (c_str p) := by
      rw [hc]; exact basename_append_slash _ hl
    have hf := check_file_congr cfg env (p ++ "/") p hb
    by_cases h1 : c_str p = ['/']
    · have hd1 : check_dir_patterns cfg env p ≠ some 0 :=
        check_dir_root cfg hcfg env p (by rw [h1]; left; decide)
      have hd2 : check_dir_patterns cfg env (p ++ "/") ≠ some 0 :=
        check_dir_root cfg hcfg env (p ++ "/") (by rw [hc, h1]; right; decide)
      simp only [in_dtracker_whitelist, hf, hd1, hd2]
    · by_cases h2 : c_str p = ['/', '/']
      · have hd1 : check_dir_patterns cfg env p ≠ some 0 :=
          check_dir_root cfg hcfg env p (by rw [h2]; right; decide)
        have hd2 : check_dir_patterns cfg env (p ++ "/") ≠ some 0 :=
          check_dir_root cfg hcfg env (p ++ "/") (by rw [hc, h2]; left; decide)
        simp only [in_dtracker_whitelist, hf, hd1, hd2]
      · have hd : dirname (c_str (p ++ "/")) = dirname (c_str p) := by
          rw [hc]; exact dirname_append_slash _ hl h1 h2
        have hdc := check_dir_congr cfg env (p ++ "/") p hd
        simp only [in_dtracker_whitelist, hf, hdc]

/-- Witness for C11: a file beneath `/lib` named with and without a trailing
separator. -/
theorem whitelist_trailing_slash_witness :
    ("/lib/x" : String) ≠ "" ∧
    in_dtracker_whitelist TARGET_LINUX libc_env.ok ("/lib/x" ++ "/") =
      in_dtracker_whitelist TARGET_LINUX libc_env.ok "/lib/x" :=
  ⟨by decide,
    whitelist_trailing_slash TARGET_LINUX (Or.inl rfl) libc_env.ok "/lib/x" (by decide)⟩

/-! ## Theorems: the final component of a path -/

/-- The basename of a path is its final component: the name that follows the
directory part, whatever that part is and however many slashes trail the
name. -/
theorem basename_final_component (dir name : List Char) (k : Nat)
    (hdir : dir = [] ∨ dir.getLast? = some '/') (hname : name ≠ []) (hns : '/' ∉ name) :
    basename (dir ++ name ++ List.replicate k '/') = name := by
  induction k with
  | zero =>
    simp only [List.replicate_zero, List.append_nil]
    rcases hdir with hd | hd
    · subst hd
      simp [basename, hname, split_last_slash_none name hns]
    · obtain ⟨d, hd2⟩ := List.getLast?_eq_some_iff.mp hd
      have hshape : dir ++ name = d ++ '/' :: name := by rw [hd2]; simp
      have hne : d ++ '/' :: name ≠ [] := by simp
      rw [hshape]
      unfold basename
      rw [if_neg hne, split_last_slash_append d name hns]
      simp [hname]
  | succ k ih =>
    have hrep : dir ++ name ++ List.replicate (k + 1) '/' =
        (dir ++ name ++ List.replicate k '/') ++ ['/'] := by
      rw [List.replicate_succ']
      simp
    have hne : dir ++ name ++ List.replicate k '/' ≠ [] := by
      intro e
      have := List.append_eq_nil.mp e
      exact hname (List.append_eq_nil.mp this.1).2
    rw [hrep, basename_append_slash _ hne, ih]

/-- C9: for a path made of any directory part (none, relative, absolute,
inside or outside the system directories), a file name and any number of
trailing slashes, the basename is the file name; when the file pattern is
configured and compiles and the file name matches it,
`in_dtracker_whitelist` returns 1, whatever the directory part and the
outcome of the directory check.  Under Linux this holds for every file name
that ends with `.so` or holds `.so.`. -/
theorem whitelist_of_basename (env : libc_env) (hs : env.strdup_file = true) (p : String)
    (dir name : List Char) (k : Nat) (hp : c_str p = dir ++ name ++ List.replicate k '/')
    (hdir : dir = [] ∨ dir.getLast? = some '/') (hname : name ≠ []) (hns : '/' ∉ name) :
    basename (c_str p) = name ∧
    (∀ (cfg : whitelist_re) (pattern : String) (re : regex_t),
      cfg.DTRACKER_FILE_WHITELIST_RE = some pattern →
      regcomp env.regcomp_file pattern = some re →
      regexec re name = 0 →
      in_dtracker_whitelist cfg env p = 1) ∧
    (env.regcomp_file = true →
      (".so".data <:+ name ∨ ".so.".data <:+: name) →
      in_dtracker_whitelist TARGET_LINUX env p = 1) ∧
    in_dtracker_whitelist TARGET_LINUX libc_env.ok "libc.so.6" = 1 ∧
    in_dtracker_whitelist TARGET_LINUX libc_env.ok "build/libfoo.so" = 1 ∧
    in_dtracker_whitelist TARGET_LINUX libc_env.ok "/home/u/libc.so/" = 1 ∧
    in_dtracker_whitelist TARGET_LINUX libc_env.ok "/home/u/libc.so.6" = 1 := by
  have hb : basename (c_str p) = name := by
    rw [hp]; exact basename_final_component dir name k hdir hname hns
  refine ⟨hb, ?_, ?_, by decide, by decide, by decide, by decide⟩
  · intro cfg pattern re hcfg hre hm
    have : check_file_patterns cfg env p = some 0 := by
      simp only [check_file_patterns, hcfg, hs, if_true, hre, hb, hm]
    simp [in_dtracker_whitelist, this]
  · intro hr hm
    have := (check_file_patterns_linux env hs hr p).mpr (by rw [hb]; exact hm)
    simp [in_dtracker_whitelist, this]

/-- Witness for C9: a library in a home directory, named with a trailing
slash. -/
theorem whitelist_of_basename_witness :
    c_str "/home/u/libc.so/" = "/home/u/".data ++ "libc.so".data ++ List.replicate 1 '/' ∧
    ("/home/u/".data = [] ∨ "/home/u/".data.getLast? = some '/') ∧
    "libc.so".data ≠ [] ∧ '/' ∉ "libc.so".data ∧
    (".so".data <:+ "libc.so".data ∨ ".so.".data <:+: "libc.so".data) ∧
    basename (c_str "/home/u/libc.so/") = "libc.so".data ∧
    in_dtracker_whitelist TARGET_LINUX libc_env.ok "/home/u/libc.so/" = 1 :=
  ⟨by decide, Or.inr (by decide), by decide, by decide, Or.inl ⟨"libc".data, by decide⟩,
    (whitelist_of_basename libc_env.ok rfl "/home/u/libc.so/" "/home/u/".data "libc.so".data 1
      (by decide) (Or.inr (by decide)) (by decide) (by decide)).1,
    (whitelist_of_basename libc_env.ok rfl "/home/u/libc.so/" "/home/u/".data "libc.so".data 1
      (by decide) (Or.inr (by decide)) (by decide) (by decide)).2.2.1 rfl
      (Or.inl ⟨"libc".data, by decide⟩)⟩
